import Mathlib

/-!
Verification development for the brand/product page finder
(`src/brand_product_finder.py`).

The Python source is shallowly embedded: strings are `List Char`, the
regular expressions of the source are embedded either as Mathlib
`RegularExpression`s (for the token-flexible matchers built by
`flexible_token_regex`) or as an executable backtracking matcher in
continuation-passing style that mirrors the priority order of Python's
`re` engine (for the phrase-shape patterns, the variant-token
substitutions and brand-word removal).  Case-insensitive matching
(`re.I`) is modelled by ASCII lower-casing both pattern and subject,
which agrees with Python's case folding on all strings appearing here.
`\w`, `\s` and `\b` are modelled with their ASCII semantics, as in the
source's inputs.  Network and HTML/JSON parsing are external
collaborators: a fetched page is modelled as its already-extracted
visible text, tag texts, JSON-LD parse results and title, and `fetch`
as a function from URLs to an outcome (status plus content, or a
transport error).
-/

set_option maxHeartbeats 1000000

namespace BPF

/-! ### Character classes (ASCII models of Python's `\w`, `\s`, `str.lower`) -/

/-- Word character for `\b` and `\w`: ASCII letter, digit or underscore. -/
def isWordCh (c : Char) : Bool :=
  c.isAlpha || c.isDigit || c = '_'

/-- Character allowed inside a `[\w\-]` class: word character or hyphen. -/
def isWordDash (c : Char) : Bool :=
  isWordCh c || c = '-'

/-- Whitespace for `\s` and Python's `str.split()` / `str.strip()`. -/
def isWsCh (c : Char) : Bool :=
  c = ' ' || c = '\t' || c = '\n' || c = '\x0d' || c = '\x0b' || c = '\x0c'

/-- Lower-case a string (ASCII, models `str.lower` on the strings used here). -/
def lowerStr (s : List Char) : List Char :=
  s.map Char.toLower

/-- Abbreviation used when quoting string literals of the source. -/
def str (s : String) : List Char :=
  s.data

/-! ### Python string helpers -/

/-- Drop trailing characters satisfying `p` (the right half of `str.strip`). -/
def rdropWhile (p : Char → Bool) : List Char → List Char
  | [] => []
  | c :: r =>
    let r' := rdropWhile p r
    if r' = [] && p c then [] else c :: r'

/-- Python `s.strip(chars)`: drop leading and trailing characters of the set. -/
def pyStrip (set : List Char) (s : List Char) : List Char :=
  rdropWhile (· ∈ set) (s.dropWhile (· ∈ set))

/-- Python `s.strip()`: drop leading and trailing whitespace. -/
def pyStripWs (s : List Char) : List Char :=
  rdropWhile isWsCh (s.dropWhile isWsCh)

/-- Helper for `pySplitWs`: accumulates the current (reversed) token. -/
def splitWsAux : List Char → List Char → List (List Char)
  | [], acc => if acc = [] then [] else [acc.reverse]
  | c :: r, acc =>
    if isWsCh c then
      if acc = [] then splitWsAux r [] else acc.reverse :: splitWsAux r []
    else splitWsAux r (c :: acc)

/-- Python `s.split()`: split on whitespace runs, discarding empty pieces. -/
def pySplitWs (s : List Char) : List (List Char) :=
  splitWsAux s []

/-- Join a list of tokens with single spaces (Python `" ".join`). -/
def joinSpace : List (List Char) → List Char
  | [] => []
  | [t] => t
  | t :: ts => t ++ ' ' :: joinSpace ts

/-- Contiguous-substring test, models Python's `a in b` on strings. -/
def isSubstr (a b : List Char) : Bool :=
  match b with
  | [] => a.isPrefixOf b
  | _ :: r => a.isPrefixOf b || isSubstr a r

/-- Lexicographic comparison on code points, models Python `str.__lt__`. -/
def clLt : List Char → List Char → Bool
  | [], [] => false
  | [], _ :: _ => true
  | _ :: _, [] => false
  | a :: as, b :: bs => if a = b then clLt as bs else decide (a < b)

/-- Insert into a sorted list (helper for `sortCl`). -/
def insertCl (x : List Char) : List (List Char) → List (List Char)
  | [] => [x]
  | y :: ys => if clLt x y then x :: y :: ys else y :: insertCl x ys

/-- Insertion sort by code-point order, models Python `sorted` on strings. -/
def sortCl : List (List Char) → List (List Char)
  | [] => []
  | x :: xs => insertCl x (sortCl xs)

/-- First-seen-order deduplication of a list. -/
def dedupFirst : List (List Char) → List (List Char)
  | [] => []
  | x :: xs => if x ∈ xs then dedupFirst xs else x :: dedupFirst xs

/-! ### Result rows and the scan aggregation loop

The orchestrator (source lines 660-670) folds every worker's row list
into `results`, skipping a row whose `(brand, product, url)` key is
already in `seen`. -/

/-- A result row (`{"brand", "product", "url", "title"}`). -/
structure Row where
  brand : List Char
  product : List Char
  url : String
  title : List Char
deriving DecidableEq, Repr

/-- Uniqueness key of a row for global aggregation. -/
def rowKey (r : Row) : List Char × List Char × String :=
  (r.brand, r.product, r.url)

/-- One pass of the aggregation loop: `if key not in seen: seen.add(key);
results.append(row)`. -/
def aggAux : List Row → List (List Char × List Char × String) → List Row → List Row
  | [], _, acc => acc
  | r :: rs, seen, acc =>
    if rowKey r ∈ seen then aggAux rs seen acc
    else aggAux rs (rowKey r :: seen) (acc ++ [r])

/-- Aggregated result list of a scan, in worker completion order. -/
def aggregate (rows : List Row) : List Row :=
  aggAux rows [] []

/-! ### The token-flexible matcher (`flexible_token_regex`, lines 111-113)

`re.escape(s).replace(r"\ ", r"[  \-\_/]*")` rewrites every space
of the literal into "any run of separator-equivalent characters"; all
other characters are matched literally (escaping does not change their
meaning).  With `re.I` this is modelled as a `RegularExpression` over
lower-cased characters. -/

/-- The separator-equivalent characters of the class `[  \-\_/]`. -/
def sepChars : List Char :=
  [' ', ' ', '-', '_', '/']

/-- Regular expression matching one separator-equivalent character. -/
def sepClass : RegularExpression Char :=
  sepChars.foldr (fun c r => RegularExpression.char c + r) 0

/-- Embedding of `flexible_token_regex` applied to the characters of a
literal: a space becomes `sepClass*`, any other character a literal
(lower-cased, modelling `re.I`). -/
def flexRegexAux : List Char → RegularExpression Char
  | [] => 1
  | c :: rest =>
    (if c = ' ' then sepClass.star else RegularExpression.char c.toLower) * flexRegexAux rest

/-- Full match of the compiled token-flexible pattern against a word
run `t` (the `\b...\b` delimiters hold at the ends of a maximal word
run); `re.I` is modelled by lower-casing the subject. -/
def flexMatch (s t : List Char) : Bool :=
  (flexRegexAux s).rmatch (lowerStr t)

/-- Word status of the character at index `i` (out of range counts as
non-word), used for `\b` conditions in searches. -/
def wordStatusAt (text : List Char) (i : Nat) : Bool :=
  match text[i]? with
  | some c => isWordCh c
  | none => false

/-- Search of a compiled `\b<flex>\b` pattern inside `text` (models
`pattern.search(text) is not None` for brand and catalog patterns). -/
def flexSearchWord (pat text : List Char) : Bool :=
  (List.range (text.length + 1)).any fun i =>
    (List.range (text.length - i + 1)).any fun len =>
      (if i = 0 then wordStatusAt text 0
       else wordStatusAt text (i - 1) != wordStatusAt text i) &&
      (wordStatusAt text (i + len - 1) != wordStatusAt text (i + len)) &&
      len != 0 &&
      flexMatch pat ((text.drop i).take len)

/-- The variants the spec talks about: `t` arises from `s` by replacing
every space with one separator-equivalent character and every other
character with its lower-cased self. -/
inductive SepVariant : List Char → List Char → Prop
  | nil : SepVariant [] []
  | ch {c s t} : c ≠ ' ' → SepVariant s t → SepVariant (c :: s) (c.toLower :: t)
  | sep {s t} (d : Char) : d ∈ sepChars → SepVariant s t → SepVariant (' ' :: s) (d :: t)

/-- First constituent word of a literal (lower-cased), splitting at spaces. -/
def firstTok : List Char → List Char
  | [] => []
  | c :: rest => if c = ' ' then [] else c.toLower :: firstTok rest

/-- Remaining constituent words of a literal (lower-cased). -/
def restToks : List Char → List (List Char)
  | [] => []
  | c :: rest => if c = ' ' then firstTok rest :: restToks rest else restToks rest

/-- Decidable check that `t` is a separator variant of `s` (soundness
towards `SepVariant` is proved below). -/
def sepVariantB : List Char → List Char → Bool
  | [], [] => true
  | c :: s, d :: t =>
    (if c = ' ' then decide (d ∈ sepChars) else d = c.toLower) && sepVariantB s t
  | _, _ => false

/-! ### Backtracking matcher engine

The two phrase-shape regexes of `detect_products_from_text` /
`detect_products_from_html`, the variant-token substitutions of
`product_canonical_display` and brand-word removal are executed with a
continuation-passing matcher whose alternative order coincides with the
backtracking priority of Python's `re` engine (greedy quantifiers first,
left alternative first). A matcher step passes the remaining suffix to
its continuation; the first continuation success wins. -/

/-- Match one character satisfying `p`. -/
def pClsK (p : Char → Bool) (s : List Char) (k : List Char → Option α) : Option α :=
  match s with
  | [] => none
  | c :: r => if p c then k r else none

/-- Case-insensitive literal match, returning the remaining suffix. -/
def litCI : List Char → List Char → Option (List Char)
  | [], s => some s
  | _ :: _, [] => none
  | c :: cs, d :: ds => if d.toLower = c.toLower then litCI cs ds else none

/-- Match a literal case-insensitively (models a literal under `re.I`). -/
def pLitK (lit : List Char) (s : List Char) (k : List Char → Option α) : Option α :=
  match litCI lit s with
  | some r => k r
  | none => none

/-- Greedy `p*` over a single-character class: longest match first. -/
def pStarK (p : Char → Bool) (s : List Char) (k : List Char → Option α) : Option α :=
  match s with
  | [] => k []
  | c :: r => if p c then (pStarK p r k).orElse (fun _ => k (c :: r)) else k (c :: r)

/-- Greedy `p+` over a single-character class. -/
def pPlusK (p : Char → Bool) (s : List Char) (k : List Char → Option α) : Option α :=
  match s with
  | [] => none
  | c :: r => if p c then pStarK p r k else none

/-- Greedy `f?`: try with `f` first, then without. -/
def pOptK (f : List Char → (List Char → Option α) → Option α)
    (s : List Char) (k : List Char → Option α) : Option α :=
  (f s k).orElse fun _ => k s

/-- Ordered alternative `f|g`. -/
def pAltK (f g : List Char → (List Char → Option α) → Option α)
    (s : List Char) (k : List Char → Option α) : Option α :=
  (f s k).orElse fun _ => g s k

/-- Greedy bounded repetition `f{0,n}`: more repetitions first. -/
def pRepK (f : List Char → (List Char → Option α) → Option α) :
    Nat → List Char → (List Char → Option α) → Option α
  | 0, s, k => k s
  | n + 1, s, k => (f s fun r => pRepK f n r k).orElse fun _ => k s

/-- Word-boundary `\b` at the junction between a position whose previous
character has word status `pw` and the suffix `s`. -/
def atBoundary (pw : Bool) (s : List Char) : Bool :=
  pw != (match s with
         | [] => false
         | c :: _ => isWordCh c)

/-! ### The two phrase-shape patterns (lines 218, 222, 250, 251)

Shape 1: `\b<brand>(?:'s)?\s+([A-Z][\w\-]*(?:\s+[A-Z0-9][\w\-]*){0,6})`,
shape 2: `([A-Z][\w\-]*(?:\s+[A-Z0-9][\w\-]*){0,6})\s+(?:by|from)\s+<brand>\b`,
both compiled with `re.I` (so `[A-Z]` is any ASCII letter and
`[A-Z0-9]` any ASCII letter or digit). -/

/-- One repetition unit `\s+[A-Z0-9][\w\-]*` of the capture group. -/
def capUnitK (s : List Char) (k : List Char → Option α) : Option α :=
  pPlusK isWsCh s fun r =>
    pClsK (fun c => c.isAlpha || c.isDigit) r fun r2 =>
      pStarK isWordDash r2 k

/-- The capture group `[A-Z][\w\-]*(?:\s+[A-Z0-9][\w\-]*){0,6}`. -/
def capBodyK (s : List Char) (k : List Char → Option α) : Option α :=
  pClsK Char.isAlpha s fun r =>
    pStarK isWordDash r fun r2 =>
      pRepK (fun t k2 => capUnitK t k2) 6 r2 k

/-- The characters `'s` of the optional possessive. -/
def apostS : List Char :=
  [Char.ofNat 39, 's']

/-- Attempt of shape 1 at a position with previous word status `pw`;
returns `(captured phrase, suffix after the match)`. -/
def matchPreAt (brand : List Char) (pw : Bool) (s : List Char) :
    Option (List Char × List Char) :=
  if atBoundary pw s then
    pLitK brand s fun s1 =>
      pOptK (pLitK apostS) s1 fun s2 =>
        pPlusK isWsCh s2 fun s3 =>
          capBodyK s3 fun s4 =>
            some (s3.take (s3.length - s4.length), s4)
  else none

/-- Word status of the last character of a literal (used for the final
`\b` of shape 2, which sits right after the brand literal). -/
def lastWordStatus (brand : List Char) : Bool :=
  match brand.getLast? with
  | some c => isWordCh c
  | none => true

/-- The tail `\s+(?:by|from)\s+<brand>` of shape 2. -/
def postSufK (brand : List Char) (s : List Char) (k : List Char → Option α) : Option α :=
  pPlusK isWsCh s fun r =>
    pAltK (pLitK (str "by")) (pLitK (str "from")) r fun r2 =>
      pPlusK isWsCh r2 fun r3 =>
        pLitK brand r3 k

/-- Attempt of shape 2 at a position (no boundary at the capture start);
returns `(captured phrase, suffix after the match)`. -/
def matchSufAt (brand : List Char) (s : List Char) :
    Option (List Char × List Char) :=
  capBodyK s fun s1 =>
    postSufK brand s1 fun s2 =>
      if atBoundary (lastWordStatus brand) s2 then
        some (s.take (s.length - s1.length), s2)
      else none

/-- Scan of `re.finditer` for shape 1: leftmost matches, resuming after
each match end (`fuel` bounds the recursion; every match consumes at
least one character). -/
def scanPreCaps (brand : List Char) : Nat → Bool → List Char → List (List Char)
  | 0, _, _ => []
  | _ + 1, _, [] => []
  | fuel + 1, pw, c :: rest =>
    match matchPreAt brand pw (c :: rest) with
    | some (cap, rem) =>
      let consumed := (c :: rest).take ((c :: rest).length - rem.length)
      cap :: scanPreCaps brand fuel (isWordCh (consumed.getLastD c)) rem
    | none => scanPreCaps brand fuel (isWordCh c) rest

/-- Scan of `re.finditer` for shape 2 (no leading boundary to track). -/
def scanSufCaps (brand : List Char) : Nat → List Char → List (List Char)
  | 0, _ => []
  | _ + 1, [] => []
  | fuel + 1, c :: rest =>
    match matchSufAt brand (c :: rest) with
    | some (cap, rem) => cap :: scanSufCaps brand fuel rem
    | none => scanSufCaps brand fuel rest

/-! ### Phrase cleanup (`clean_phrase_tokens`, lines 176-193) -/

/-- The exact characters of the strip set literal of the source. -/
def stripChars : List Char :=
  (" -â€“â€”:|.,)â„¢Â®(").data

/-- `STOPWORDS` of the source. -/
def stopWords : List (List Char) :=
  [str "and", str "or", str "with", str "for", str "to", str "the", str "a",
   str "an", str "in", str "on", str "of", str "by"]

/-- `GENERIC_BAD_TOKENS` of the source. -/
def genericBadTokens : List (List Char) :=
  [str "guide", str "beginners", str "beginner", str "best", str "top", str "vs",
   str "comparison", str "compare", str "review", str "reviews", str "let",
   str "peace", str "how", str "why", str "what", str "actually", str "really",
   str "lowest", str "entrance", str "ultimate", str "complete", str "2020",
   str "2021", str "2022", str "2023", str "2024", str "2025"]

/-- A token that stops the keep loop: stopword/noise word, an
all-lower-case purely alphabetic word, or one containing `,`/`;`/`/`. -/
def tokBreaks (t : List Char) : Bool :=
  lowerStr t ∈ genericBadTokens || lowerStr t ∈ stopWords ||
  (decide (t ≠ []) && t.all Char.isAlpha && t.all fun c => !c.isUpper) ||
  (t.any fun c => c = ',' || c = ';' || c = '/')

/-- Embedding of `clean_phrase_tokens`. -/
def cleanPhraseTokens (s : List Char) : List Char :=
  let s1 := pyStrip stripChars s
  let toks := pySplitWs s1
  match toks with
  | [] => []
  | t0 :: _ =>
    if decide (t0 ≠ []) && t0.all Char.isDigit then []
    else pyStrip stripChars (joinSpace (toks.takeWhile fun t => !tokBreaks t))

/-! ### The candidate filter loop (lines 226-239 and 261-274)

Order of the source loop: the ignore-word / other-brand `continue`
(substring tests on the lower-cased phrase), the optional brand
prepending, the `< 2` token `continue`, the case-insensitive dedup
append, and finally the `len(res) >= max_per_page` break, which is only
reached when neither `continue` fired. -/

/-- Tail-recursive embedding of the filter loop. -/
def filterCandsAux (brand : List Char) (req : Bool)
    (ignore other : List (List Char)) (maxN : Nat) :
    List (List Char) → List (List Char) → List (List Char) → List (List Char)
  | [], _, res => res
  | p :: ps, seen, res =>
    let pl := lowerStr p
    if (other.any fun ob => isSubstr ob pl) || (ignore.any fun w => isSubstr w pl) then
      filterCandsAux brand req ignore other maxN ps seen res
    else
      let p' := if req && !isSubstr (lowerStr brand) pl then brand ++ ' ' :: p else p
      let pl' := lowerStr p'
      if (pySplitWs p').length < 2 then
        filterCandsAux brand req ignore other maxN ps seen res
      else
        let seen' := if pl' ∈ seen then seen else pl' :: seen
        let res' := if pl' ∈ seen then res else res ++ [p']
        if maxN ≤ res'.length then res'
        else filterCandsAux brand req ignore other maxN ps seen' res'

/-- The filter loop started on a fresh `seen`/`res`. -/
def filterCandidates (brand : List Char) (req : Bool)
    (ignore other : List (List Char)) (maxN : Nat) (out : List (List Char)) :
    List (List Char) :=
  filterCandsAux brand req ignore other maxN out [] []

/-- Captures of both phrase shapes over a text, cleaned, empty cleanups
dropped (the `if phrase:` guards of the source). -/
def rawCandidates (text brand : List Char) : List (List Char) :=
  ((scanPreCaps brand (text.length + 1) false text).map cleanPhraseTokens).filter
      (fun p => decide (p ≠ [])) ++
    ((scanSufCaps brand (text.length + 1) text).map cleanPhraseTokens).filter
      fun p => decide (p ≠ [])

/-- Embedding of `detect_products_from_text`. -/
def detectFromText (text brand : List Char) (maxN : Nat) (req : Bool)
    (ignore other : List (List Char)) : List (List Char) :=
  filterCandidates brand req ignore other maxN (rawCandidates text brand)

/-- Embedding of `detect_products_from_html`; the markup layer is
external, so the page is represented by the list of text contents of
its heading/emphasis/list/link tags, in document order. -/
def detectFromHtml (tagTexts : List (List Char)) (brand : List Char) (maxN : Nat)
    (req : Bool) (ignore other : List (List Char)) : List (List Char) :=
  filterCandidates brand req ignore other maxN
    (tagTexts.flatMap fun t => rawCandidates t brand)

/-! ### Canonicalization (`product_canonical_display` / `product_canonical_key`,
lines 276-292)

Each `re.sub` of the source is embedded as a left-to-right scan that at
every position asks a matcher for the length of the first (priority
order) match there, replaces it and resumes after it; word status of
the previous character is threaded for the `\b` conditions. -/

/-- A matcher: previous word status and suffix to the first match length. -/
def MatcherT : Type :=
  Bool → List Char → Option Nat

/-- Matched length of a `\b<body>\b` pattern at a position: run the body,
keep the first alternative whose end also sits on a word boundary
(zero-length matches are rejected; no variant token is nullable). -/
def subMatchLen (body : ∀ {α}, List Char → (List Char → Option α) → Option α) :
    MatcherT := fun pw s =>
  if atBoundary pw s then
    body s fun r =>
      let n := s.length - r.length
      let lastW :=
        match (s.take n).getLast? with
        | some c => isWordCh c
        | none => pw
      if atBoundary lastW r && n != 0 then some n else none
  else none

/-- Fuelled replacement scan of `re.sub`: at each position of the
original string try the matcher; on a match emit `rep` and resume after
it.  Every match consumes at least one character, so fuel equal to the
length of the string suffices. -/
def subScanF (m : MatcherT) (rep : List Char) : Nat → Bool → List Char → List Char
  | 0, _, s => s
  | _ + 1, _, [] => []
  | fuel + 1, pw, c :: rest =>
    match m pw (c :: rest) with
    | some (n + 1) =>
      rep ++ subScanF m rep fuel (isWordCh (((c :: rest).take (n + 1)).getLastD c))
        ((c :: rest).drop (n + 1))
    | some 0 => c :: subScanF m rep fuel (isWordCh c) rest
    | none => c :: subScanF m rep fuel (isWordCh c) rest

/-- Replacement scan of `re.sub` with sufficient fuel. -/
def subScan (m : MatcherT) (rep : List Char) (pw : Bool) (s : List Char) : List Char :=
  subScanF m rep s.length pw s

/-- Separator class `[\s\-]` of the variant tokens. -/
def isWsDash (c : Char) : Bool :=
  isWsCh c || c = '-'

/-- Body of `wi[\s\-]?fi`. -/
def vtWiFiK : List Char → (List Char → Option α) → Option α := fun s k =>
  pLitK (str "wi") s fun r =>
    pOptK (pClsK isWsDash) r fun r2 =>
      pLitK (str "fi") r2 k

/-- Body of `with\s+wi[\s\-]?fi`. -/
def vtWithWiFiK : List Char → (List Char → Option α) → Option α := fun s k =>
  pLitK (str "with") s fun r =>
    pPlusK isWsCh r fun r2 => vtWiFiK r2 k

/-- Body of `wi[\s\-]?fi\s+enabled`. -/
def vtWiFiEnabledK : List Char → (List Char → Option α) → Option α := fun s k =>
  vtWiFiK s fun r =>
    pPlusK isWsCh r fun r2 =>
      pLitK (str "enabled") r2 k

/-- Body of `app[\s\-]?controlled`. -/
def vtAppControlledK : List Char → (List Char → Option α) → Option α := fun s k =>
  pLitK (str "app") s fun r =>
    pOptK (pClsK isWsDash) r fun r2 =>
      pLitK (str "controlled") r2 k

/-- Body of `with\s+app`. -/
def vtWithAppK : List Char → (List Char → Option α) → Option α := fun s k =>
  pLitK (str "with") s fun r =>
    pPlusK isWsCh r fun r2 =>
      pLitK (str "app") r2 k

/-- The eight `VARIANT_TOKENS` matchers, in source order. -/
def variantMatchers : List MatcherT :=
  [subMatchLen fun s k => vtWiFiK s k,
   subMatchLen fun s k => pLitK (str "wifi") s k,
   subMatchLen fun s k => vtWithWiFiK s k,
   subMatchLen fun s k => vtWiFiEnabledK s k,
   subMatchLen fun s k => vtAppControlledK s k,
   subMatchLen fun s k => vtWithAppK s k,
   subMatchLen fun s k => pLitK (str "bluetooth") s k,
   subMatchLen fun s k => pLitK (str "wireless") s k]

/-- The loop `for vt in VARIANT_TOKENS: s = re.sub(...)`. -/
def variantPass (s : List Char) : List Char :=
  variantMatchers.foldl (fun t m => subScan m [] false t) s

/-- Matcher for `\s{2,}`: the maximal whitespace run when it has length
at least 2 (no boundary conditions). -/
def wsRunMatcher : MatcherT := fun _ s =>
  let n := (s.takeWhile isWsCh).length
  if 2 ≤ n then some n else none

/-- Embedding of `re.sub(r"\s{2,}", " ", s)`. -/
def collapseWs (s : List Char) : List Char :=
  subScan wsRunMatcher [' '] false s

/-- Embedding of `product_canonical_display`. -/
def productCanonicalDisplay (brand name : List Char) : List Char :=
  let s := variantPass name
  let s := pyStripWs (pyStrip stripChars (collapseWs s))
  if (lowerStr brand ++ ' ' :: lowerStr brand).isPrefixOf (lowerStr s) then
    s.drop (brand.length + 1)
  else s

/-- Matcher for `\b<word>\b` with a plain (already lower-cased) literal,
used by brand-word removal and the per-URL dedup normalizer. -/
def wordRemoveMatcher (w : List Char) : MatcherT := fun pw s =>
  if w = [] then none
  else if atBoundary pw s then
    match litCI w s with
    | some r => if atBoundary (lastWordStatus w) r then some w.length else none
    | none => none
  else none

/-- Embedding of `re.sub(rf"\b{re.escape(brand.lower())}\b", "", s)`. -/
def removeBrandWord (brandLower s : List Char) : List Char :=
  subScan (wordRemoveMatcher brandLower) [] false s

/-- Key characters `[a-z0-9]`. -/
def isKeyChar (c : Char) : Bool :=
  ('a' ≤ c && c ≤ 'z') || c.isDigit

/-- Embedding of `re.sub(r"[^a-z0-9]+", "", s)`: deleting every run of
non-key characters is deleting every non-key character. -/
def squashKey (s : List Char) : List Char :=
  s.filter isKeyChar

/-- Embedding of `product_canonical_key`. -/
def productCanonicalKey (brand name : List Char) : List Char :=
  squashKey (removeBrandWord (lowerStr brand) (lowerStr (productCanonicalDisplay brand name)))

/-- Embedding of `canonicalize_phrase`: first catalog pattern of the
brand that matches wins; otherwise collapse variants or keep the phrase.
A catalog entry is `(canonical name, pattern literal)`; its compiled
pattern is the token-flexible `\b...\b` search. -/
def canonicalizePhrase (brand phrase : List Char)
    (canonMap : List (List Char × List Char × List Char)) (collapse : Bool) :
    List Char :=
  match canonMap.find? fun e => e.1 = brand && flexSearchWord e.2.2 phrase with
  | some e => e.2.1
  | none => if collapse then productCanonicalDisplay brand phrase else phrase

/-! ### Structured data (`jsonld_products`, lines 136-170)

The markup and `json.loads` layers are external: a page carries the
parse outcome of each `application/ld+json` script block (`none` for
malformed JSON, which the inner `except` skips).  The outer `except`
aborts the remaining blocks on the first type error (calling `.strip()`
on a truthy non-string) but returns the pairs accumulated so far. -/

/-- JSON values as decoded by `json.loads`. -/
inductive Json where
  | null
  | bool (b : Bool)
  | num (n : Int)
  | jstr (s : List Char)
  | arr (xs : List Json)
  | obj (fields : List (List Char × Json))

/-- Python dict lookup `n.get(k)` (first matching key). -/
def jget (fields : List (List Char × Json)) (key : List Char) : Option Json :=
  (fields.find? fun f => f.1 = key).map fun f => f.2

/-- Python truthiness of a decoded JSON value. -/
def truthy : Json → Bool
  | .null => false
  | .bool b => b
  | .num n => n != 0
  | .jstr s => decide (s ≠ [])
  | .arr xs => !xs.isEmpty
  | .obj fs => !fs.isEmpty

/-- Evaluation of `(v or "").strip()`: empty for a falsy value, the
stripped string for a truthy string, a `TypeError`-style failure for a
truthy non-string. -/
def strOrEmpty : Option Json → Except Unit (List Char)
  | none => .ok []
  | some j =>
    if truthy j then
      match j with
      | .jstr s => .ok (pyStripWs s)
      | _ => .error ()
    else .ok []

/-- Evaluation of the `@type` check: the node is a Product iff the type
value is the string `"product"` (case-insensitively) or a list with
such a string member. -/
def isProductNode (fields : List (List Char × Json)) : Bool :=
  match jget fields (str "@type") with
  | some (.jstr t) => lowerStr t = str "product"
  | some (.arr xs) =>
    xs.any fun x =>
      match x with
      | .jstr t => decide (lowerStr t = str "product")
      | _ => false
  | _ => false

/-- Evaluation of the brand extraction (`b.get("name")` for a dict,
`b.strip()` for a string, otherwise empty). -/
def brandOf (fields : List (List Char × Json)) : Except Unit (List Char) :=
  match jget fields (str "brand") with
  | some (.obj bf) => strOrEmpty (jget bf (str "name"))
  | some (.jstr s) => .ok (pyStripWs s)
  | _ => .ok []

/-- Processing of one JSON-LD node: `some (brand, name)` when the node
is a Product with non-empty name, substituting `"Unknown"` for a
missing brand name. -/
def processNode : Json → Except Unit (Option (List Char × List Char))
  | .obj fields =>
    if isProductNode fields then
      match strOrEmpty (jget fields (str "name")) with
      | .error e => .error e
      | .ok name =>
        match brandOf fields with
        | .error e => .error e
        | .ok bname =>
          .ok (if name ≠ [] then
                 some ((if bname = [] then str "Unknown" else bname), name)
               else none)
    else .ok none
  | _ => .ok none

/-- Nodes of a decoded block (`data if isinstance(data, list) else [data]`). -/
def nodesOf : Json → List Json
  | .arr xs => xs
  | j => [j]

/-- Node loop; the boolean is true when a type error aborted it. -/
def goNodes : List Json → List (List Char × List Char) →
    List (List Char × List Char) × Bool
  | [], acc => (acc, false)
  | n :: ns, acc =>
    match processNode n with
    | .error _ => (acc, true)
    | .ok none => goNodes ns acc
    | .ok (some pr) => goNodes ns (acc ++ [pr])

/-- Block loop: skip malformed blocks; a type error inside a block
aborts the whole extraction, returning the pairs produced so far. -/
def goBlocks : List (Option Json) → List (List Char × List Char) →
    List (List Char × List Char)
  | [], acc => acc
  | none :: bs, acc => goBlocks bs acc
  | some j :: bs, acc =>
    match goNodes (nodesOf j) acc with
    | (acc', false) => goBlocks bs acc'
    | (acc', true) => acc'

/-- Embedding of `jsonld_products`. -/
def jsonldProducts (blocks : List (Option Json)) : List (List Char × List Char) :=
  goBlocks blocks []

/-! ### Pages, fetch and the per-URL scan (lines 30-37, 610-658) -/

/-- A fetched page after the external markup layer: visible text, tag
texts used by the markup heuristic, JSON-LD parse outcomes per script
block, and the guessed title. `isEmptyHtml` records a 200 response with
falsy (empty) body, which `if not html` treats as no content. -/
structure Page where
  isEmptyHtml : Bool
  text : List Char
  tagTexts : List (List Char)
  jdBlocks : List (Option Json)
  title : List Char

/-- Outcome of the transport layer for one URL. -/
inductive FetchOutcome where
  | ok (status : Nat) (page : Page)
  | err

/-- Embedding of `fetch`: the body for status 200, `None` for any other
status, `None` for any transport error (the `except RequestException`
branch). -/
def fetchModel (w : String → FetchOutcome) (url : String) : Option Page :=
  match w url with
  | .ok st pg => if st = 200 then some pg else none
  | .err => none

/-- A catalog entry (`Product` dataclass). -/
structure Product where
  brand : List Char
  name : List Char
  aliases : List (List Char)
  brandOnly : Bool

/-- The scan options consumed by the per-page scan and the pipeline. -/
structure ScanConfig where
  maxNames : Nat
  requireBrandInName : Bool
  requireBrandMatch : Bool
  ignoreWords : List (List Char)
  otherBrands : List (List Char)
  collapseVariants : Bool
  dedupePerUrl : Bool
  autoDetect : Bool

/-- The `catalog_patterns` table: one `(brand, name, pattern literal)`
entry per non-empty name/alias of every non-brand-only entry
(`build_canonical_map` is the identity, so this is also `canon_map`). -/
def catalogPatsOf (products : List Product) : List (List Char × List Char × List Char) :=
  products.flatMap fun p =>
    if !p.brandOnly && decide (p.name ≠ []) then
      ((p.name :: p.aliases).filter fun it => decide (it ≠ [])).map fun it =>
        (p.brand, p.name, it)
    else []

/-- Embedding of the brand-only branch of `scan_url`: merge catalog
hits, JSON-LD hits and both detector outputs into a set, then one row
per name in sorted order. -/
def brandOnlyRows (cfg : ScanConfig) (cpats : List (List Char × List Char × List Char))
    (jdPairs : List (List Char × List Char)) (pg : Page) (brand : List Char)
    (url : String) : List Row :=
  if flexSearchWord brand pg.text then
    let catHits := ((cpats.filter fun e => e.1 = brand && flexSearchWord e.2.2 pg.text).map
      fun e => e.2.1)
    let jdHits := ((jdPairs.filter fun pr => lowerStr pr.1 = lowerStr brand).map
      fun pr => canonicalizePhrase brand (pyStripWs pr.2) cpats cfg.collapseVariants)
    let htmlHits := ((detectFromHtml pg.tagTexts brand cfg.maxNames cfg.requireBrandInName
        cfg.ignoreWords cfg.otherBrands).map
      fun ph => canonicalizePhrase brand ph cpats cfg.collapseVariants)
    let textHits := ((detectFromText pg.text brand cfg.maxNames cfg.requireBrandInName
        cfg.ignoreWords cfg.otherBrands).map
      fun ph => canonicalizePhrase brand ph cpats cfg.collapseVariants)
    (sortCl (dedupFirst (catHits ++ jdHits ++ htmlHits ++ textHits))).map
      fun pname => ⟨brand, pname, url, pg.title⟩
  else []

/-- Embedding of the named-entry branch of `scan_url`. -/
def namedRows (cfg : ScanConfig) (cpats : List (List Char × List Char × List Char))
    (jdPairs : List (List Char × List Char)) (pg : Page) (p : Product)
    (url : String) : List Row :=
  let pats := (p.name :: p.aliases).filter fun it => decide (it ≠ [])
  if pats.any fun lit => flexSearchWord lit pg.text then
    let outBrand :=
      if (decide (p.brand = str "Unknown") || !cfg.requireBrandMatch) &&
          decide (jdPairs ≠ []) then
        match jdPairs.find? fun pr =>
            decide (pr.2 ≠ []) && pats.any fun lit => flexSearchWord lit pr.2 with
        | some pr => if pr.1 ≠ [] then pr.1 else p.brand
        | none => p.brand
      else p.brand
    if cfg.requireBrandMatch && !flexSearchWord p.brand pg.text then []
    else
      let ob := if outBrand ≠ [] then outBrand else p.brand
      [⟨ob, canonicalizePhrase ob p.name cpats cfg.collapseVariants, url, pg.title⟩]
  else []

/-- Embedding of `scan_url`: no content means no rows; otherwise each
catalog entry contributes via its branch. -/
def scanUrl (cfg : ScanConfig) (products : List Product)
    (cpats : List (List Char × List Char × List Char))
    (w : String → FetchOutcome) (url : String) : List Row :=
  match fetchModel w url with
  | none => []
  | some pg =>
    if pg.isEmptyHtml then []
    else
      let jdPairs := if cfg.autoDetect then jsonldProducts pg.jdBlocks else []
      products.flatMap fun p =>
        if p.brandOnly then brandOnlyRows cfg cpats jdPairs pg p.brand url
        else namedRows cfg cpats jdPairs pg p url

/-! ### Global collapse pass and per-URL dedup (lines 672-687, 295-335) -/

/-- The collapse-variants pass: keep the first row per
`(brand.lower, canonicalKey, url)`, rewriting the product to its
canonical display form. -/
def collapsePassAux : List Row → List (List Char × List Char × String) → List Row
  | [], _ => []
  | r :: rs, seenKeys =>
    let k := (lowerStr r.brand, productCanonicalKey r.brand r.product, r.url)
    if k ∈ seenKeys then collapsePassAux rs seenKeys
    else { r with product := productCanonicalDisplay r.brand r.product } ::
      collapsePassAux rs (k :: seenKeys)

/-- The collapse-variants pass started fresh. -/
def collapsePassRun (rows : List Row) : List Row :=
  collapsePassAux rows []

/-- Normalizer of `_dedupe_within_url`: brand word removed, non-alnum
runs to single spaces, whitespace collapsed and stripped. -/
def normForBucket (brandL name : List Char) : List Char :=
  let s := removeBrandWord brandL (lowerStr name)
  let s := subScan (fun _ t =>
    let n := (t.takeWhile fun c => !(isKeyChar c || c = ' ')).length
    if 1 ≤ n then some n else none) [' '] false s
  pyStripWs (subScan (fun _ t =>
    let n := (t.takeWhile isWsCh).length
    if 1 ≤ n then some n else none) [' '] false s)

/-- Bucket key: the normalizer output with all whitespace removed. -/
def bucketKeyOf (brandL name : List Char) : List Char :=
  (normForBucket brandL name).filter fun c => !isWsCh c

/-- Insert into the bucket table, replacing in place when the new name
is strictly longer (`len(name) > len(prev["product"])`). -/
def bucketsIns (key : List Char) (it : Row) :
    List (List Char × Row) → List (List Char × Row)
  | [] => [(key, it)]
  | (k, prev) :: bs =>
    if k = key then
      if prev.product.length < it.product.length then (k, it) :: bs
      else (k, prev) :: bs
    else (k, prev) :: bucketsIns key it bs

/-- Second pass of `_dedupe_within_url` on one group: drop a survivor
whose brand-stripped name is a substring of another survivor's with a
strictly longer raw name. -/
def dropSubsumed (keep : List Row) (names : List (List Char)) : List Row :=
  (List.range keep.length).filterMap fun i =>
    match keep[i]?, names[i]? with
    | some it, some ni =>
      if (List.range keep.length).any fun j =>
          decide (j ≠ i) &&
          (match keep[j]?, names[j]? with
           | some jt, some nj =>
             isSubstr ni nj && decide (it.product.length < jt.product.length)
           | _, _ => false) then
        none
      else some it
    | _, _ => none

/-- `_dedupe_within_url` on one `(brand.lower, url)` group. -/
def dedupeGroup (brandL : List Char) (items : List Row) : List Row :=
  let buckets := items.foldl
    (fun bs it => bucketsIns (bucketKeyOf brandL it.product) it bs) []
  let keep := buckets.map fun b => b.2
  let names := keep.map fun it => pyStripWs (removeBrandWord brandL (lowerStr it.product))
  dropSubsumed keep names

/-- Group keys in first-appearance order (insertion order of the
`defaultdict`). -/
def firstSeenKeys (acc : List (List Char × String)) :
    List (List Char × String) → List (List Char × String)
  | [] => []
  | k :: ks =>
    if k ∈ acc then firstSeenKeys acc ks
    else k :: firstSeenKeys (k :: acc) ks

/-- Embedding of `_dedupe_within_url`. -/
def dedupeWithinUrl (rows : List Row) : List Row :=
  (firstSeenKeys [] (rows.map fun r => (lowerStr r.brand, r.url))).flatMap fun g =>
    dedupeGroup g.1 (rows.filter fun r => lowerStr r.brand = g.1 && r.url = g.2)

/-- The end of the orchestrator: worker rows in completion order,
aggregated with the uniqueness key, then the optional collapse pass and
per-URL dedup. -/
def runScan (cfg : ScanConfig) (products : List Product)
    (w : String → FetchOutcome) (urls : List String) : List Row :=
  let cpats := catalogPatsOf products
  let rows := urls.flatMap (scanUrl cfg products cpats w)
  let results := aggregate rows
  let results :=
    if cfg.collapseVariants && decide (results ≠ []) then collapsePassRun results
    else results
  if decide (results ≠ []) && cfg.dedupePerUrl then dedupeWithinUrl results
  else results

/-! ### Crawl fallback (lines 575-589) -/

/-- Embedding of the breadth-first crawl loop: `pages u` is the list of
visitable links of `u` when its fetch succeeds, `keep` the same-site
test; the frontier is FIFO and the loop stops when the visited set
reaches the budget or the frontier empties. -/
def crawlBfs (pages : String → Option (List String)) (keep : String → Bool)
    (limit : Nat) : List String → List String → List String
  | [], visited => visited
  | u :: rest, visited =>
    if visited.length < limit then
      if u ∈ visited then crawlBfs pages keep limit rest visited
      else
        let v' := u :: visited
        match pages u with
        | none => crawlBfs pages keep limit rest v'
        | some links =>
          crawlBfs pages keep limit
            (rest ++ links.filter fun l => decide (l ∉ v') && keep l) v'
    else visited
termination_by q v => (limit - v.length, q.length)

/-! ### Concrete scenarios

Scenario A (testable property of the spec, claim C3): a site whose
sitemap lists three URLs, exactly one page's visible text is
`"Acme Rover X2 by Acme"`, catalog `{brand: Acme, product: "",
aliases: [], brandOnly: true}`, `requireBrandInName = false`, all other
options at their defaults. The sitemap stage is external to the claim;
its output is the three-URL list handed to the orchestrator. -/

/-- A markup-free page with the given visible text. -/
def plainPage (text : List Char) : Page :=
  ⟨false, text, [], [], str "Post"⟩

/-- The three pages of scenario A. -/
def scenAWorld : String → FetchOutcome := fun u =>
  if u = "https://acme.example/a" then .ok 200 (plainPage (str "Welcome home"))
  else if u = "https://acme.example/b" then .ok 200 (plainPage (str "Acme Rover X2 by Acme"))
  else if u = "https://acme.example/c" then .ok 200 (plainPage (str "Contact us"))
  else .err

/-- The sitemap's three URLs. -/
def scenAUrls : List String :=
  ["https://acme.example/a", "https://acme.example/b", "https://acme.example/c"]

/-- Scenario A configuration: `requireBrandInName = false`, everything
else at the source defaults (`max_names = 12`, collapse and per-URL
dedup on, auto-detect on, `require_brand_match = false`). -/
def scenACfg : ScanConfig :=
  ⟨12, false, false, [], [], true, true, true⟩

/-- Scenario A catalog: the single brand-only entry. -/
def scenAProducts : List Product :=
  [⟨str "Acme", [], [], true⟩]

/-- Scenario A result rows. -/
def scenAResult : List Row :=
  runScan scenACfg scenAProducts scenAWorld scenAUrls

/-- Scenario for claim C7: a page whose markup heuristic and free-text
heuristic each contribute one (different) candidate while the
configured maximum per page is 1. -/
def capPage : Page :=
  ⟨false, str "Acme Beta Two", [str "Acme Alpha One"], [], str "T"⟩

/-- Configuration with `max_names = 1`. -/
def capCfg : ScanConfig :=
  ⟨1, false, false, [], [], true, true, true⟩

/-- The merged brand-only candidate rows of the C7 scenario page. -/
def capRows : List Row :=
  brandOnlyRows capCfg [] [] capPage (str "Acme") "https://acme.example/p"

/-! ### Predicates used to state conditional canonicalization facts -/

/-- Does the replacement scan find a (non-empty) match anywhere? -/
def scanHasMatch (m : MatcherT) : Bool → List Char → Bool
  | _, [] => false
  | pw, c :: rest =>
    (match m pw (c :: rest) with
     | some (_ + 1) => true
     | _ => false) ||
    scanHasMatch m (isWordCh c) rest

/-- No variant-token pattern matches anywhere in the string. -/
def variantFree (s : List Char) : Bool :=
  variantMatchers.all fun m => !scanHasMatch m false s

/-- Whitespace status of the first character (empty counts non-white). -/
def wsHead (l : List Char) : Bool :=
  match l with
  | [] => false
  | c :: _ => isWsCh c

/-- No two adjacent whitespace characters. -/
def noWsPair : List Char → Bool
  | [] => true
  | [_] => true
  | a :: b :: r => !(isWsCh a && isWsCh b) && noWsPair (b :: r)

/-- Neither edge character is strippable (strip-set member or whitespace). -/
def edgeClean (s : List Char) : Bool :=
  (match s.head? with
   | some c => !(decide (c ∈ stripChars) || isWsCh c)
   | none => true) &&
  (match s.getLast? with
   | some c => !(decide (c ∈ stripChars) || isWsCh c)
   | none => true)

/-- A letter, digit or space. -/
def simpleChar (c : Char) : Bool :=
  ('a' ≤ c && c ≤ 'z') || ('A' ≤ c && c ≤ 'Z') || ('0' ≤ c && c ≤ '9') || c = ' '

/-- A non-empty all-lower-case ASCII word. -/
def simpleWord (s : List Char) : Bool :=
  !s.isEmpty && s.all fun c => 'a' ≤ c && c ≤ 'z'

/-- A non-empty phrase of letters, digits and spaces. -/
def simplePhrase (s : List Char) : Bool :=
  !s.isEmpty && s.all simpleChar

/-! ## Theorems -/

/-! ### C1: aggregation is keyed, duplicate-insensitive and order-independent -/

theorem aggAux_key_mem (rs : List Row) (seen : List (List Char × List Char × String))
    (acc : List Row) (hinv : ∀ k, k ∈ seen ↔ k ∈ acc.map rowKey) (k) :
    k ∈ (aggAux rs seen acc).map rowKey ↔ k ∈ acc.map rowKey ∨ k ∈ rs.map rowKey := by
  induction rs generalizing seen acc with
  | nil => simp [aggAux]
  | cons r rs ih =>
    by_cases h : rowKey r ∈ seen
    · rw [aggAux, if_pos h, ih seen acc hinv]
      have hr : rowKey r ∈ acc.map rowKey := (hinv _).1 h
      simp only [List.map_cons, List.mem_cons]
      constructor
      · rintro (ha | hb)
        · exact Or.inl ha
        · exact Or.inr (Or.inr hb)
      · rintro (ha | hk | hb)
        · exact Or.inl ha
        · exact Or.inl (hk ▸ hr)
        · exact Or.inr hb
    · rw [aggAux, if_neg h]
      have hinv' : ∀ k, k ∈ rowKey r :: seen ↔ k ∈ (acc ++ [r]).map rowKey := by
        intro k'
        simp only [List.mem_cons, List.map_append, List.mem_append, List.map_cons,
          List.map_nil, List.mem_singleton, hinv k']
        tauto
      rw [ih _ _ hinv']
      simp only [List.map_append, List.mem_append, List.map_cons, List.map_nil,
        List.mem_singleton, List.mem_cons]
      tauto

theorem aggAux_key_nodup (rs : List Row) (seen : List (List Char × List Char × String))
    (acc : List Row) (hinv : ∀ k, k ∈ seen ↔ k ∈ acc.map rowKey)
    (hnd : (acc.map rowKey).Nodup) : ((aggAux rs seen acc).map rowKey).Nodup := by
  induction rs generalizing seen acc with
  | nil => simpa [aggAux] using hnd
  | cons r rs ih =>
    by_cases h : rowKey r ∈ seen
    · rw [aggAux, if_pos h]; exact ih seen acc hinv hnd
    · rw [aggAux, if_neg h]
      refine ih _ _ ?_ ?_
      · intro k'
        simp only [List.mem_cons, List.map_append, List.mem_append, List.map_cons,
          List.map_nil, List.mem_singleton, hinv k']
        tauto
      · have hr : rowKey r ∉ acc.map rowKey := fun hmem => h ((hinv _).2 hmem)
        simp only [List.map_append, List.map_cons, List.map_nil]
        exact List.Nodup.append hnd (List.nodup_singleton _)
          (by simpa [List.disjoint_singleton] using hr)

/-- C1: the finalized collection has at most one row per
`(brand, product, url)` triple; a row whose key is already present
leaves the fold state unchanged; and the key membership of the final
collection is exactly that of the contributed rows, hence independent
of the completion order of the workers. -/
theorem scan_aggregation_at_most_once_per_key :
    (∀ rows : List Row, ((aggregate rows).map rowKey).Nodup) ∧
    (∀ rows : List Row, ∀ k, k ∈ (aggregate rows).map rowKey ↔ k ∈ rows.map rowKey) ∧
    (∀ rows rows' : List Row, rows.Perm rows' → ∀ k,
      (k ∈ (aggregate rows).map rowKey ↔ k ∈ (aggregate rows').map rowKey)) ∧
    (∀ (r : Row) rs seen acc, rowKey r ∈ seen →
      aggAux (r :: rs) seen acc = aggAux rs seen acc) := by
  have hinv0 : ∀ k : List Char × List Char × String,
      k ∈ ([] : List (List Char × List Char × String)) ↔
        k ∈ (([] : List Row)).map rowKey := by simp
  have hmem : ∀ rows : List Row, ∀ k,
      k ∈ (aggregate rows).map rowKey ↔ k ∈ rows.map rowKey := by
    intro rows k
    have := aggAux_key_mem rows [] [] hinv0 k
    simpa [aggregate] using this
  refine ⟨?_, hmem, ?_, ?_⟩
  · intro rows
    have := aggAux_key_nodup rows [] [] hinv0 (by simp)
    simpa [aggregate] using this
  · intro rows rows' hperm k
    rw [hmem rows k, hmem rows' k]
    constructor
    · intro h
      exact (hperm.map rowKey).mem_iff.1 h
    · intro h
      exact (hperm.map rowKey).mem_iff.2 h
  · intro r rs seen acc h
    rw [aggAux, if_pos h]

/-- Witness for C1 at concrete rows: two rows with the same key in
either order aggregate to a single row, and the duplicate insertion is
a no-op. -/
theorem scan_aggregation_at_most_once_per_key_witness :
    (((aggregate [⟨str "Acme", str "P1", "u", str "t1"⟩,
        ⟨str "Acme", str "P1", "u", str "t2"⟩]).map rowKey).Nodup) ∧
    ((rowKey ⟨str "Acme", str "P1", "u", str "t1"⟩ ∈
        (aggregate [⟨str "Acme", str "P1", "u", str "t1"⟩,
          ⟨str "Acme", str "P1", "u", str "t2"⟩]).map rowKey) ↔
      (rowKey ⟨str "Acme", str "P1", "u", str "t1"⟩ ∈
        (aggregate [⟨str "Acme", str "P1", "u", str "t2"⟩,
          ⟨str "Acme", str "P1", "u", str "t1"⟩]).map rowKey)) ∧
    aggAux [⟨str "Acme", str "P1", "u", str "t2"⟩]
        [rowKey ⟨str "Acme", str "P1", "u", str "t1"⟩] [] =
      aggAux [] [rowKey ⟨str "Acme", str "P1", "u", str "t1"⟩] [] := by
  refine ⟨scan_aggregation_at_most_once_per_key.1 _,
    scan_aggregation_at_most_once_per_key.2.2.1 _ _ (by decide) _,
    scan_aggregation_at_most_once_per_key.2.2.2 _ _ _ _ ?_⟩
  decide

/-! ### C2: the token-flexible matcher -/

theorem sep_rmatch {d : Char} (hd : d ∈ sepChars) : sepClass.rmatch [d] = true := by
  simp only [sepChars, List.mem_cons, List.not_mem_nil, or_false] at hd
  rcases hd with h | h | h | h | h <;> subst h <;> decide

theorem sepStar_rmatch {l : List Char} (h : ∀ d ∈ l, d ∈ sepChars) :
    sepClass.star.rmatch l = true := by
  rw [RegularExpression.star_rmatch_iff]
  refine ⟨l.map fun d => [d], ?_, ?_⟩
  · induction l with
    | nil => rfl
    | cons c cs ih =>
      simp only [List.map_cons, List.flatten_cons, List.singleton_append, List.cons_inj_right]
      exact ih fun d hd => h d (List.mem_cons_of_mem c hd)
  · intro t ht
    rcases List.mem_map.1 ht with ⟨d, hd, rfl⟩
    exact ⟨by simp, sep_rmatch (h d hd)⟩

theorem flex_matches_variant {s t : List Char} (h : SepVariant s t) :
    (flexRegexAux s).rmatch t = true := by
  induction h with
  | nil => decide
  | @ch c s' t' hc _ ih =>
    rw [flexRegexAux, if_neg hc, RegularExpression.mul_rmatch_iff]
    exact ⟨[c.toLower], t', rfl, by rw [RegularExpression.char_rmatch_iff], ih⟩
  | @sep s' t' d hd _ ih =>
    rw [flexRegexAux, if_pos rfl, RegularExpression.mul_rmatch_iff]
    refine ⟨[d], t', rfl, sepStar_rmatch ?_, ih⟩
    intro e he
    rw [List.mem_singleton] at he
    exact he ▸ hd

theorem sepVariant_lower (s : List Char) : SepVariant s (lowerStr s) := by
  induction s with
  | nil => exact .nil
  | cons c cs ih =>
    show SepVariant (c :: cs) (c.toLower :: lowerStr cs)
    by_cases hc : c = ' '
    · subst hc
      exact .sep ' ' (by decide) ih
    · exact .ch hc ih

theorem sepVariantB_sound : ∀ {s t : List Char}, sepVariantB s t = true → SepVariant s t
  | [], [], _ => .nil
  | c :: s, d :: t, h => by
    rw [sepVariantB, Bool.and_eq_true] at h
    by_cases hc : c = ' '
    · subst hc
      rw [if_pos rfl, decide_eq_true_eq] at h
      exact .sep d h.1 (sepVariantB_sound h.2)
    · rw [if_neg hc, decide_eq_true_eq] at h
      exact h.1 ▸ .ch hc (sepVariantB_sound h.2)
  | [], _ :: _, h => by simp [sepVariantB] at h
  | _ :: _, [], h => by simp [sepVariantB] at h

theorem flex_match_tokens {s : List Char} : ∀ {t : List Char},
    (flexRegexAux s).rmatch t = true →
    firstTok s <+: t ∧ ∀ tok ∈ restToks s, tok <:+: t := by
  induction s with
  | nil =>
    intro t h
    rw [flexRegexAux] at h
    have := (RegularExpression.one_rmatch_iff t).1 h
    subst this
    exact ⟨by simp [firstTok], by simp [restToks]⟩
  | cons c cs ih =>
    intro t h
    by_cases hc : c = ' '
    · subst hc
      rw [flexRegexAux, if_pos rfl, RegularExpression.mul_rmatch_iff] at h
      rcases h with ⟨u, v, rfl, _, hv⟩
      rcases ih hv with ⟨hpre, hrest⟩
      have hvt : v <:+: u ++ v := (List.suffix_append u v).isInfix
      constructor
      · simp [firstTok]
      · intro tok htok
        rw [restToks, if_pos rfl, List.mem_cons] at htok
        rcases htok with rfl | htok
        · exact hpre.isInfix.trans hvt
        · exact ((hrest tok htok).trans hvt)
    · rw [flexRegexAux, if_neg hc, RegularExpression.mul_rmatch_iff] at h
      rcases h with ⟨u, v, rfl, hu, hv⟩
      have hu' : u = [c.toLower] := (RegularExpression.char_rmatch_iff _ _).1 hu
      subst hu'
      rcases ih hv with ⟨hpre, hrest⟩
      constructor
      · rw [firstTok, if_neg hc]
        simpa [List.cons_prefix_cons] using hpre
      · intro tok htok
        rw [restToks, if_neg hc] at htok
        exact (hrest tok htok).trans (List.suffix_cons c.toLower v).isInfix

/-- C2 as stated fails on the code: `flexible_token_regex` rewrites
only the spaces of the literal (`re.escape` escapes a space as an
escaped blank, which alone is replaced by the separator class), so a
hyphen, underscore or slash inside the literal stays literal.  The
compiled matcher for `"Litter-Robot 4"` accepts the literal itself but
rejects `"Litter Robot 4"` and `"Litter_Robot_4"`, the spec's own
example variants with the hyphen separator replaced. -/
theorem hyphen_separator_not_flexible :
    flexMatch (str "Litter-Robot 4") (str "Litter-Robot 4") = true ∧
    flexMatch (str "Litter-Robot 4") (str "Litter Robot 4") = false ∧
    flexMatch (str "Litter-Robot 4") (str "Litter_Robot_4") = false ∧
    flexSearchWord (str "Litter-Robot 4") (str "buy Litter Robot 4 now") = false := by
  decide

/-- C2 amended: only the space separators of a compiled literal are
flexible: every compiled token-flexible matcher accepts the literal it
was compiled from and every variant in which each space separator is
replaced by any of space, non-breaking space, hyphen, underscore or
slash, while hyphens, underscores and slashes occurring inside the
literal are matched only literally; and every string it accepts
contains each constituent word of the literal, so a token run with
fewer constituent words is never matched. -/
theorem compiled_matcher_accepts_variants_and_requires_all_words (s : List Char) :
    flexMatch s s = true ∧
    (∀ t, SepVariant s t → (flexRegexAux s).rmatch t = true) ∧
    (∀ t, (flexRegexAux s).rmatch t = true →
      firstTok s <+: t ∧ ∀ tok ∈ restToks s, tok <:+: t) :=
  ⟨flex_matches_variant (sepVariant_lower s),
   fun _ h => flex_matches_variant h,
   fun _ h => flex_match_tokens h⟩

/-- Witness for C2 on the catalog literal `"Litter-Robot 4"`: it matches
itself, matches the underscore variant, and any accepted string must
contain both constituent words. -/
theorem compiled_matcher_accepts_variants_and_requires_all_words_witness :
    flexMatch (str "Litter-Robot 4") (str "Litter-Robot 4") = true ∧
    (flexRegexAux (str "Litter-Robot 4")).rmatch (str "litter-robot_4") = true ∧
    (str "litter-robot" <+: str "litter-robot_4") ∧
    (str "4" <:+: str "litter-robot_4") := by
  have h := compiled_matcher_accepts_variants_and_requires_all_words (str "Litter-Robot 4")
  have hv : (flexRegexAux (str "Litter-Robot 4")).rmatch (str "litter-robot_4") = true :=
    h.2.1 _ (sepVariantB_sound (by decide))
  have ht := h.2.2 _ hv
  refine ⟨h.1, hv, ?_, ?_⟩
  · have h1 := ht.1
    simp only [str] at h1 ⊢
    exact h1
  · refine ht.2 (str "4") ?_
    decide

/-! ### Character range facts -/

theorem asciiLower_toNat {c : Char} (h : ('a' ≤ c && c ≤ 'z') = true) :
    97 ≤ c.val.toNat ∧ c.val.toNat ≤ 122 := by
  rw [Bool.and_eq_true, decide_eq_true_eq, decide_eq_true_eq, Char.le_def, Char.le_def] at h
  obtain ⟨h1, h2⟩ := h
  have g1 : ((97 : UInt32)).toNat ≤ c.val.toNat := h1
  have g2 : c.val.toNat ≤ ((122 : UInt32)).toNat := h2
  exact ⟨by simpa using g1, by simpa using g2⟩

/-- Alphanumeric value ranges (digit, upper, lower). -/
def alnumRange (c : Char) : Prop :=
  (48 ≤ c.val.toNat ∧ c.val.toNat ≤ 57) ∨ (65 ≤ c.val.toNat ∧ c.val.toNat ≤ 90) ∨
    (97 ≤ c.val.toNat ∧ c.val.toNat ≤ 122)

theorem asciiLower_alnumRange {c : Char} (h : ('a' ≤ c && c ≤ 'z') = true) : alnumRange c :=
  Or.inr (Or.inr (asciiLower_toNat h))

theorem char_range_of_le {c lo hi : Char} (h : (lo ≤ c && c ≤ hi) = true) :
    lo.val.toNat ≤ c.val.toNat ∧ c.val.toNat ≤ hi.val.toNat := by
  rw [Bool.and_eq_true, decide_eq_true_eq, decide_eq_true_eq, Char.le_def, Char.le_def] at h
  exact ⟨h.1, h.2⟩

theorem simpleChar_alnumRange {c : Char} (h : simpleChar c = true) (hc : c ≠ ' ') :
    alnumRange c := by
  simp only [simpleChar, Bool.or_eq_true] at h
  rcases h with ((h | h) | h) | h
  · exact Or.inr (Or.inr (asciiLower_toNat h))
  · have := char_range_of_le h
    exact Or.inr (Or.inl (by simpa using this))
  · have := char_range_of_le h
    exact Or.inl (by simpa using this)
  · rw [decide_eq_true_eq] at h
    exact absurd h hc

theorem alnumRange_isWordCh {c : Char} (h : alnumRange c) : isWordCh c = true := by
  simp only [isWordCh, Char.isAlpha, Char.isLower, Char.isUpper, Char.isDigit,
    Bool.or_eq_true, Bool.and_eq_true, decide_eq_true_eq, ge_iff_le]
  rcases h with h | h | h
  · refine Or.inl (Or.inr ?_)
    constructor
    · show ((48 : UInt32)).toNat ≤ c.val.toNat
      simpa using h.1
    · show c.val.toNat ≤ ((57 : UInt32)).toNat
      simpa using h.2
  · refine Or.inl (Or.inl (Or.inl ?_))
    constructor
    · show ((65 : UInt32)).toNat ≤ c.val.toNat
      simpa using h.1
    · show c.val.toNat ≤ ((90 : UInt32)).toNat
      simpa using h.2
  · refine Or.inl (Or.inl (Or.inr ?_))
    constructor
    · show ((97 : UInt32)).toNat ≤ c.val.toNat
      simpa using h.1
    · show c.val.toNat ≤ ((122 : UInt32)).toNat
      simpa using h.2

theorem char_eq_of_toNat {c d : Char} (h : c.val.toNat = d.val.toNat) : c = d :=
  Char.ext (UInt32.ext h)

theorem alnumRange_not_ws {c : Char} (h : alnumRange c) : isWsCh c = false := by
  simp only [isWsCh, Bool.or_eq_false_iff, decide_eq_false_iff_not]
  refine ⟨⟨⟨⟨⟨?_, ?_⟩, ?_⟩, ?_⟩, ?_⟩, ?_⟩ <;>
    · rintro rfl
      rcases h with h | h | h <;> simp [UInt32.size] at h

theorem strip_vals : ∀ d ∈ stripChars,
    d.val.toNat < 48 ∨ (57 < d.val.toNat ∧ d.val.toNat < 65) ∨
      (90 < d.val.toNat ∧ d.val.toNat < 97) ∨ 122 < d.val.toNat := by
  decide

theorem alnumRange_not_strip {c : Char} (h : alnumRange c) : (c ∈ stripChars) = False := by
  simp only [eq_iff_iff, iff_false]
  intro hc
  have := strip_vals c hc
  rcases h with h | h | h <;> omega

theorem asciiLower_toLower {c : Char} (h : ('a' ≤ c && c ≤ 'z') = true) : c.toLower = c := by
  obtain ⟨h1, _⟩ := asciiLower_toNat h
  rw [Char.toLower]
  have hn : ¬ (c.toNat ≥ 65 ∧ c.toNat ≤ 90) := by
    rintro ⟨_, hle⟩
    have he : c.toNat = c.val.toNat := rfl
    omega
  simp [hn]

theorem asciiLower_ne_of_range {c d : Char} (h : ('a' ≤ c && c ≤ 'z') = true)
    (hd : d.val.toNat < 97 ∨ 122 < d.val.toNat) : c ≠ d := by
  obtain ⟨h1, h2⟩ := asciiLower_toNat h
  intro he
  subst he
  omega

theorem toLower_range {c : Char} (h : ('a' ≤ c.toLower && c.toLower ≤ 'z') = true) :
    (65 ≤ c.val.toNat ∧ c.val.toNat ≤ 90) ∨ (97 ≤ c.val.toNat ∧ c.val.toNat ≤ 122) := by
  rw [Char.toLower] at h
  by_cases hin : c.toNat ≥ 65 ∧ c.toNat ≤ 90
  · exact Or.inl hin
  · rw [if_neg hin] at h
    exact Or.inr (asciiLower_toNat h)

theorem toLower_alnumRange {c : Char} (h : ('a' ≤ c.toLower && c.toLower ≤ 'z') = true) :
    alnumRange c := by
  rcases toLower_range h with h | h
  · exact Or.inr (Or.inl h)
  · exact Or.inr (Or.inr h)

/-! ### Replacement-scan facts -/

theorem subScanF_congr (m : MatcherT) (rep : List Char) :
    ∀ (f g : Nat) (pw : Bool) (s : List Char), s.length ≤ f → s.length ≤ g →
      subScanF m rep f pw s = subScanF m rep g pw s := by
  intro f
  induction f with
  | zero =>
    intro g pw s hf _
    have : s = [] := List.length_eq_zero.1 (Nat.le_zero.1 hf)
    subst this
    cases g <;> rfl
  | succ f ih =>
    intro g pw s hf hg
    cases s with
    | nil => cases g <;> rfl
    | cons c rest =>
      cases g with
      | zero => simp at hg
      | succ g =>
        rw [subScanF, subScanF]
        have hf' : rest.length ≤ f := by simpa using hf
        have hg' : rest.length ≤ g := by simpa using hg
        cases hm : m pw (c :: rest) with
        | none =>
          dsimp only
          rw [ih g (isWordCh c) rest hf' hg']
        | some n =>
          cases n with
          | zero =>
            dsimp only
            rw [ih g (isWordCh c) rest hf' hg']
          | succ n =>
            dsimp only
            rw [ih g _ ((c :: rest).drop (n + 1))
              (by simp only [List.length_drop, List.length_cons]; omega)
              (by simp only [List.length_drop, List.length_cons]; omega)]

theorem subScanF_id (m : MatcherT) (rep : List Char) :
    ∀ (f : Nat) (pw : Bool) (s : List Char), s.length ≤ f →
      scanHasMatch m pw s = false → subScanF m rep f pw s = s := by
  intro f
  induction f with
  | zero => intro pw s _ _; rfl
  | succ f ih =>
    intro pw s hf hs
    cases s with
    | nil => rfl
    | cons c rest =>
      rw [scanHasMatch, Bool.or_eq_false_iff] at hs
      rw [subScanF]
      cases hm : m pw (c :: rest) with
      | none =>
        dsimp only
        rw [ih (isWordCh c) rest (by simpa using hf) hs.2]
      | some n =>
        cases n with
        | zero =>
          dsimp only
          rw [ih (isWordCh c) rest (by simpa using hf) hs.2]
        | succ n =>
          rw [hm] at hs
          simp at hs

theorem subScan_id {m : MatcherT} {rep : List Char} {pw : Bool} {s : List Char}
    (h : scanHasMatch m pw s = false) : subScan m rep pw s = s :=
  subScanF_id m rep s.length pw s le_rfl h

theorem variantPass_id {s : List Char} (h : variantFree s = true) : variantPass s = s := by
  simp only [variantFree, variantMatchers, List.all_cons, List.all_nil, Bool.and_eq_true,
    Bool.not_eq_true', and_true] at h
  obtain ⟨h1, h2, h3, h4, h5, h6, h7, h8⟩ := h
  simp only [variantPass, variantMatchers, List.foldl_cons, List.foldl_nil]
  rw [subScan_id h1, subScan_id h2, subScan_id h3, subScan_id h4, subScan_id h5,
    subScan_id h6, subScan_id h7, subScan_id h8]

/-! ### Whitespace-collapse facts -/

theorem takeWhile_length_drop (p : Char → Bool) :
    ∀ l : List Char, l.drop (l.takeWhile p).length = l.dropWhile p := by
  intro l
  induction l with
  | nil => rfl
  | cons c r ih =>
    by_cases hc : p c
    · simp only [List.takeWhile_cons, hc, if_true, List.length_cons, List.drop_succ_cons,
        List.dropWhile_cons, ih]
    · simp only [List.takeWhile_cons, hc, if_false, List.length_nil, List.drop_zero,
        List.dropWhile_cons]
      simp [hc]

theorem wsHead_dropWhile (l : List Char) : wsHead (l.dropWhile isWsCh) = false := by
  induction l with
  | nil => rfl
  | cons c r ih =>
    by_cases hc : isWsCh c
    · simpa [List.dropWhile_cons, hc] using ih
    · simp [List.dropWhile_cons, hc, wsHead]

theorem noWsPair_cons (a : Char) (l : List Char) :
    noWsPair (a :: l) = (!(isWsCh a && wsHead l) && noWsPair l) := by
  cases l with
  | nil => simp [noWsPair, wsHead]
  | cons b r => rfl

theorem takeWhile_len2 {c : Char} {rest : List Char}
    (h : 2 ≤ ((c :: rest).takeWhile isWsCh).length) :
    isWsCh c = true ∧ wsHead rest = true := by
  by_cases hc : isWsCh c
  · refine ⟨hc, ?_⟩
    rw [List.takeWhile_cons, if_pos hc, List.length_cons] at h
    cases rest with
    | nil => simp at h
    | cons b r =>
      rw [List.takeWhile_cons] at h
      by_cases hb : isWsCh b
      · exact hb
      · rw [if_neg hb] at h
        simp at h
  · rw [List.takeWhile_cons, if_neg hc] at h
    simp at h

theorem wsRunMatcher_some {pw : Bool} {s : List Char} {k : Nat}
    (h : wsRunMatcher pw s = some k) :
    k = (s.takeWhile isWsCh).length ∧ 2 ≤ k := by
  rw [wsRunMatcher] at h
  by_cases h2 : 2 ≤ (s.takeWhile isWsCh).length
  · rw [if_pos h2] at h
    cases h
    exact ⟨rfl, h2⟩
  · rw [if_neg h2] at h
    cases h

theorem subScanF_wsHead :
    ∀ (f : Nat) (pw : Bool) (s : List Char),
      wsHead (subScanF wsRunMatcher [' '] f pw s) = wsHead s := by
  intro f pw s
  cases f with
  | zero => rfl
  | succ f =>
    cases s with
    | nil => rfl
    | cons c rest =>
      rw [subScanF]
      cases hm : wsRunMatcher pw (c :: rest) with
      | none => rfl
      | some k =>
        obtain ⟨hk, h2⟩ := wsRunMatcher_some hm
        cases k with
        | zero => omega
        | succ j =>
          have hws := @takeWhile_len2 c rest (hk ▸ h2)
          dsimp only
          simp only [List.cons_append, List.nil_append]
          show isWsCh ' ' = isWsCh c
          rw [hws.1]
          decide

theorem collapse_noWsPair_aux :
    ∀ (f : Nat) (pw : Bool) (s : List Char), s.length ≤ f →
      noWsPair (subScanF wsRunMatcher [' '] f pw s) = true := by
  intro f
  induction f with
  | zero =>
    intro pw s hf
    have : s = [] := List.length_eq_zero.1 (Nat.le_zero.1 hf)
    subst this
    rfl
  | succ f ih =>
    intro pw s hf
    cases s with
    | nil => rfl
    | cons c rest =>
      rw [subScanF]
      cases hm : wsRunMatcher pw (c :: rest) with
      | none =>
        dsimp only
        rw [noWsPair_cons, subScanF_wsHead]
        refine Bool.and_eq_true_iff.2 ⟨?_, ih (isWordCh c) rest (by simpa using hf)⟩
        by_cases hc : isWsCh c
        · have hlt : ¬ 2 ≤ ((c :: rest).takeWhile isWsCh).length := by
            intro hge
            rw [wsRunMatcher, if_pos hge] at hm
            cases hm
          have hrest : wsHead rest = false := by
            cases rest with
            | nil => rfl
            | cons b r =>
              by_cases hb : isWsCh b
              · exfalso
                apply hlt
                rw [List.takeWhile_cons, if_pos hc, List.takeWhile_cons, if_pos hb]
                simp
              · show isWsCh b = false
                exact Bool.eq_false_iff.mpr hb
          simp [hrest]
        · simp [hc]
      | some k =>
        obtain ⟨hk, h2⟩ := wsRunMatcher_some hm
        cases k with
        | zero => omega
        | succ j =>
          have hdrop : (c :: rest).drop (j + 1) = (c :: rest).dropWhile isWsCh := by
            rw [hk]
            exact takeWhile_length_drop isWsCh (c :: rest)
          have hws : wsHead (subScanF wsRunMatcher [' '] f
              (isWordCh (((c :: rest).take (j + 1)).getLastD c))
              ((c :: rest).drop (j + 1))) = false := by
            rw [subScanF_wsHead, hdrop, wsHead_dropWhile]
          have hnp2 : noWsPair (subScanF wsRunMatcher [' '] f
              (isWordCh (((c :: rest).take (j + 1)).getLastD c))
              ((c :: rest).drop (j + 1))) = true := by
            apply ih
            simp only [List.length_drop, List.length_cons]
            have : rest.length ≤ f := by simpa using hf
            omega
          dsimp only
          simp only [List.cons_append, List.nil_append]
          rw [noWsPair_cons, hws, hnp2]
          simp

theorem noWsPair_no_wsRun : ∀ (pw : Bool) (s : List Char), noWsPair s = true →
    scanHasMatch wsRunMatcher pw s = false := by
  intro pw s
  induction s generalizing pw with
  | nil => intro _; rfl
  | cons c rest ih =>
    intro h
    rw [noWsPair_cons, Bool.and_eq_true] at h
    rw [scanHasMatch, Bool.or_eq_false_iff]
    refine ⟨?_, ih (isWordCh c) h.2⟩
    cases hm : wsRunMatcher pw (c :: rest) with
    | none => rfl
    | some k =>
      obtain ⟨hk, h2⟩ := wsRunMatcher_some hm
      have hws := @takeWhile_len2 c rest (hk ▸ h2)
      rw [hws.1, hws.2] at h
      simp at h

theorem collapse_id {s : List Char} (h : noWsPair s = true) : collapseWs s = s :=
  subScan_id (noWsPair_no_wsRun false s h)

theorem noWsPair_tail {a : Char} {l : List Char} (h : noWsPair (a :: l) = true) :
    noWsPair l = true := by
  rw [noWsPair_cons, Bool.and_eq_true] at h
  exact h.2

theorem noWsPair_append_left : ∀ {l t : List Char}, noWsPair (l ++ t) = true →
    noWsPair l = true := by
  intro l
  induction l with
  | nil => intro t _; rfl
  | cons a l ih =>
    intro t h
    rw [List.cons_append, noWsPair_cons, Bool.and_eq_true] at h
    rw [noWsPair_cons, Bool.and_eq_true]
    refine ⟨?_, ih h.2⟩
    cases l with
    | nil => simp [wsHead]
    | cons b r =>
      have := h.1
      simpa [wsHead] using this

theorem noWsPair_append_right : ∀ {t l : List Char}, noWsPair (t ++ l) = true →
    noWsPair l = true := by
  intro t
  induction t with
  | nil => intro l h; exact h
  | cons a t ih =>
    intro l h
    rw [List.cons_append] at h
    exact ih (noWsPair_tail h)

theorem noWsPair_of_pre {l₁ l₂ : List Char} (h : l₁ <+: l₂)
    (hp : noWsPair l₂ = true) : noWsPair l₁ = true := by
  obtain ⟨t, rfl⟩ := h
  exact noWsPair_append_left hp

theorem noWsPair_of_suffix {l₁ l₂ : List Char} (h : l₁ <:+ l₂)
    (hp : noWsPair l₂ = true) : noWsPair l₁ = true := by
  obtain ⟨t, rfl⟩ := h
  exact noWsPair_append_right hp

theorem rdropWhile_prefix_self (p : Char → Bool) : ∀ l : List Char, rdropWhile p l <+: l := by
  intro l
  induction l with
  | nil => exact List.prefix_refl _
  | cons c r ih =>
    rw [rdropWhile]
    by_cases h : rdropWhile p r = [] ∧ p c = true
    · rw [if_pos (by simp [h.1, h.2])]
      exact List.nil_prefix
    · have : ¬ (rdropWhile p r = [] && p c) = true := by
        intro hc
        rw [Bool.and_eq_true, decide_eq_true_eq] at hc
        exact h hc
      rw [if_neg this]
      exact List.cons_prefix_cons.2 ⟨rfl, ih⟩

theorem noWsPair_dropWhile {p : Char → Bool} {l : List Char} (h : noWsPair l = true) :
    noWsPair (l.dropWhile p) = true :=
  noWsPair_of_suffix (List.dropWhile_suffix p) h

theorem noWsPair_rdropWhile {p : Char → Bool} {l : List Char} (h : noWsPair l = true) :
    noWsPair (rdropWhile p l) = true :=
  noWsPair_of_pre (rdropWhile_prefix_self p l) h

theorem noWsPair_drop {l : List Char} (n : Nat) (h : noWsPair l = true) :
    noWsPair (l.drop n) = true :=
  noWsPair_of_suffix (List.drop_suffix n l) h

/-! ### Strip identities -/

theorem dropWhile_id_of_head {p : Char → Bool} {l : List Char}
    (h : ∀ c, l.head? = some c → p c = false) : l.dropWhile p = l := by
  cases l with
  | nil => rfl
  | cons c r =>
    rw [List.dropWhile_cons, h c rfl]
    simp

theorem rdropWhile_id_of_last {p : Char → Bool} : ∀ {l : List Char},
    (∀ c, l.getLast? = some c → p c = false) → rdropWhile p l = l := by
  intro l
  induction l with
  | nil => intro _; rfl
  | cons c r ih =>
    intro h
    cases r with
    | nil =>
      rw [rdropWhile, rdropWhile]
      have := h c rfl
      simp [this]
    | cons b r' =>
      have hr : rdropWhile p (b :: r') = b :: r' := by
        apply ih
        intro d hd
        apply h
        rwa [List.getLast?_cons_cons]
      rw [rdropWhile, hr]
      simp

theorem edgeClean_parts {s : List Char} (h : edgeClean s = true) :
    (∀ c, s.head? = some c → (decide (c ∈ stripChars) || isWsCh c) = false) ∧
    (∀ c, s.getLast? = some c → (decide (c ∈ stripChars) || isWsCh c) = false) := by
  rw [edgeClean, Bool.and_eq_true] at h
  constructor
  · intro c hc
    have := h.1
    rw [hc] at this
    simpa using this
  · intro c hc
    have := h.2
    rw [hc] at this
    simpa using this

theorem pyStrip_id_of_edgeClean {s : List Char} (h : edgeClean s = true) :
    pyStrip stripChars s = s := by
  obtain ⟨hh, hl⟩ := edgeClean_parts h
  rw [pyStrip]
  have h1 : s.dropWhile (fun c => decide (c ∈ stripChars)) = s := by
    apply dropWhile_id_of_head
    intro c hc
    have := hh c hc
    rw [Bool.or_eq_false_iff] at this
    exact this.1
  rw [h1]
  apply rdropWhile_id_of_last
  intro c hc
  have := hl c hc
  rw [Bool.or_eq_false_iff] at this
  exact this.1

theorem pyStripWs_id_of_edgeClean {s : List Char} (h : edgeClean s = true) :
    pyStripWs s = s := by
  obtain ⟨hh, hl⟩ := edgeClean_parts h
  rw [pyStripWs]
  have h1 : s.dropWhile isWsCh = s := by
    apply dropWhile_id_of_head
    intro c hc
    have := hh c hc
    rw [Bool.or_eq_false_iff] at this
    exact this.2
  rw [h1]
  apply rdropWhile_id_of_last
  intro c hc
  have := hl c hc
  rw [Bool.or_eq_false_iff] at this
  exact this.2

/-! ### C4: canonical display idempotence -/

theorem display_noWsPair (brand name : List Char) :
    noWsPair (productCanonicalDisplay brand name) = true := by
  rw [productCanonicalDisplay]
  have h1 : noWsPair (collapseWs (variantPass name)) = true :=
    collapse_noWsPair_aux _ false (variantPass name) le_rfl
  have h2 : noWsPair (pyStripWs (pyStrip stripChars (collapseWs (variantPass name)))) = true := by
    rw [pyStripWs, pyStrip]
    exact noWsPair_rdropWhile (noWsPair_dropWhile
      (noWsPair_rdropWhile (noWsPair_dropWhile h1)))
  split
  · exact noWsPair_drop _ h2
  · exact h2

/-- C4 as stated fails on the code: removing a variant token can create
a fresh variant-token occurrence, so a second canonicalization can
shrink the phrase further.  Concretely, `canonicalDisplay("Acme",
"wi bluetooth fi")` is `"wi fi"`, whose second canonicalization is
empty. -/
theorem canonical_display_not_idempotent :
    productCanonicalDisplay (str "Acme") (str "wi bluetooth fi") = str "wi fi" ∧
    productCanonicalDisplay (str "Acme")
        (productCanonicalDisplay (str "Acme") (str "wi bluetooth fi")) = [] ∧
    decide (productCanonicalDisplay (str "Acme")
        (productCanonicalDisplay (str "Acme") (str "wi bluetooth fi")) =
      productCanonicalDisplay (str "Acme") (str "wi bluetooth fi")) = false := by
  decide

/-- C4 amended: the canonical display function is idempotent on every
brand and phrase whose once-canonicalized form contains no variant
token occurrence, does not start with the doubled brand word, and has
no strippable (punctuation or whitespace) edge character. -/
theorem canonical_display_idempotent_when_stable (brand name : List Char)
    (h1 : variantFree (productCanonicalDisplay brand name) = true)
    (h2 : (lowerStr brand ++ ' ' :: lowerStr brand).isPrefixOf
        (lowerStr (productCanonicalDisplay brand name)) = false)
    (h3 : edgeClean (productCanonicalDisplay brand name) = true) :
    productCanonicalDisplay brand (productCanonicalDisplay brand name) =
      productCanonicalDisplay brand name := by
  have hnp : noWsPair (productCanonicalDisplay brand name) = true :=
    display_noWsPair brand name
  conv_lhs => rw [productCanonicalDisplay]
  rw [variantPass_id h1, collapse_id hnp, pyStrip_id_of_edgeClean h3,
    pyStripWs_id_of_edgeClean h3, h2]
  simp

/-- Witness for the amended C4 at brand `"Acme"`, phrase `"Widget Pro"`. -/
theorem canonical_display_idempotent_when_stable_witness :
    productCanonicalDisplay (str "Acme")
        (productCanonicalDisplay (str "Acme") (str "Widget Pro")) =
      productCanonicalDisplay (str "Acme") (str "Widget Pro") :=
  canonical_display_idempotent_when_stable (str "Acme") (str "Widget Pro")
    (by decide) (by decide) (by decide)

/-! ### C5: brand-invariance of canonical keys -/

theorem litCI_append_self : ∀ (w rest : List Char), litCI w (w ++ rest) = some rest := by
  intro w
  induction w with
  | nil => intro rest; rfl
  | cons c cs ih =>
    intro rest
    rw [List.cons_append, litCI, if_pos rfl, ih]

theorem simpleWord_parts {s : List Char} (h : simpleWord s = true) :
    s ≠ [] ∧ ∀ c ∈ s, ('a' ≤ c && c ≤ 'z') = true := by
  rw [simpleWord, Bool.and_eq_true, List.all_eq_true] at h
  refine ⟨?_, fun c hc => h.2 c hc⟩
  intro he
  subst he
  simp at h

theorem simplePhrase_parts {s : List Char} (h : simplePhrase s = true) :
    s ≠ [] ∧ ∀ c ∈ s, simpleChar c = true := by
  rw [simplePhrase, Bool.and_eq_true, List.all_eq_true] at h
  refine ⟨?_, fun c hc => h.2 c hc⟩
  intro he
  subst he
  simp at h

theorem isPrefixOf_append_cancel : ∀ (x y z : List Char),
    ((x ++ y).isPrefixOf (x ++ z)) = (y.isPrefixOf z) := by
  intro x y z
  induction x with
  | nil => rfl
  | cons c x ih =>
    simp only [List.cons_append, List.isPrefixOf_cons₂_self]
    exact ih

theorem isPrefixOf_of_append_left : ∀ (x y z : List Char),
    (x ++ y).isPrefixOf z = true → x.isPrefixOf z = true := by
  intro x
  induction x with
  | nil => intro y z _; cases z <;> rfl
  | cons c x ih =>
    intro y z h
    cases z with
    | nil => simp [List.isPrefixOf] at h
    | cons d z =>
      rw [List.cons_append, List.isPrefixOf, Bool.and_eq_true] at h
      rw [List.isPrefixOf, Bool.and_eq_true]
      exact ⟨h.1, ih y z h.2⟩

theorem edgeClean_intro {s : List Char}
    (hh : ∀ c, s.head? = some c → (decide (c ∈ stripChars) || isWsCh c) = false)
    (hl : ∀ c, s.getLast? = some c → (decide (c ∈ stripChars) || isWsCh c) = false) :
    edgeClean s = true := by
  rw [edgeClean, Bool.and_eq_true]
  constructor
  · cases hs : s.head? with
    | none => simp
    | some c =>
      have := hh c hs
      simp [this]
  · cases hs : s.getLast? with
    | none => simp
    | some c =>
      have := hl c hs
      simp [this]

theorem noWsPair_word_space (xs p : List Char) (hxs : ∀ c ∈ xs, isWsCh c = false)
    (hph : wsHead p = false) (hp : noWsPair p = true) :
    noWsPair (xs ++ ' ' :: p) = true := by
  induction xs with
  | nil =>
    rw [List.nil_append, noWsPair_cons, hph, hp]
    decide
  | cons c xs ih =>
    rw [List.cons_append, noWsPair_cons, hxs c (by simp),
      ih fun d hd => hxs d (List.mem_cons_of_mem c hd)]
    simp

theorem alnum_edge_clean {c : Char} (h : alnumRange c) :
    (decide (c ∈ stripChars) || isWsCh c) = false := by
  rw [Bool.or_eq_false_iff, alnumRange_not_ws h]
  refine ⟨?_, rfl⟩
  rw [decide_eq_false_iff_not]
  intro hc
  exact (alnumRange_not_strip h).mp hc

theorem wordRemoveMatcher_space_none (lb q : List Char) (hb : simpleWord lb = true)
    (pw : Bool) : wordRemoveMatcher lb pw (' ' :: q) = none := by
  obtain ⟨hne, hall⟩ := simpleWord_parts hb
  cases lb with
  | nil => exact absurd rfl hne
  | cons c cs =>
    rw [wordRemoveMatcher, if_neg (by simp)]
    have hlit : litCI (c :: cs) (' ' :: q) = none := by
      rw [litCI]
      have hc : Char.toLower c = c := asciiLower_toLower (hall c (by simp))
      have hcs : c ≠ ' ' := asciiLower_ne_of_range (hall c (by simp)) (by simp [UInt32.size])
      rw [if_neg]
      intro he
      rw [hc] at he
      exact hcs (by rw [← he]; rfl)
    split
    · rw [hlit]
    · rfl

theorem removeBrand_step (lb q : List Char) (hb : simpleWord lb = true) :
    removeBrandWord lb (lb ++ ' ' :: q) = ' ' :: removeBrandWord lb q := by
  obtain ⟨hne, hall⟩ := simpleWord_parts hb
  cases lb with
  | nil => exact absurd rfl hne
  | cons c cs =>
    have hm : wordRemoveMatcher (c :: cs) false ((c :: cs) ++ ' ' :: q) =
        some (cs.length + 1) := by
      rw [wordRemoveMatcher, if_neg (by simp)]
      have hbd : atBoundary false ((c :: cs) ++ ' ' :: q) = true := by
        rw [List.cons_append, atBoundary]
        rw [alnumRange_isWordCh (asciiLower_alnumRange (hall c (by simp)))]
        rfl
      rw [if_pos hbd, litCI_append_self]
      dsimp only
      have hlast : lastWordStatus (c :: cs) = true := by
        rw [lastWordStatus]
        cases hg : (c :: cs).getLast? with
        | none => simp at hg
        | some d =>
          have hd : d ∈ c :: cs := by
            have := List.getLast?_eq_getLast (c :: cs) (by simp)
            rw [this] at hg
            cases hg
            exact List.getLast_mem _
          exact alnumRange_isWordCh (asciiLower_alnumRange (hall d hd))
      rw [hlast]
      have hbd2 : atBoundary true (' ' :: q) = true := by
        rw [atBoundary]
        decide
      rw [if_pos hbd2]
      simp
    have hnone := wordRemoveMatcher_space_none (c :: cs) q hb
    rw [removeBrandWord, removeBrandWord, subScan, subScan]
    have hlen : ((c :: cs) ++ ' ' :: q).length = (cs.length + 1 + q.length) + 1 := by
      simp
      omega
    rw [hlen]
    rw [show (c :: cs) ++ ' ' :: q = c :: (cs ++ ' ' :: q) from rfl]
    rw [subScanF]
    rw [show c :: (cs ++ ' ' :: q) = (c :: cs) ++ ' ' :: q from rfl, hm]
    dsimp only
    have hdrop : ((c :: cs) ++ ' ' :: q).drop (cs.length + 1) = ' ' :: q := by
      rw [show cs.length + 1 = (c :: cs).length from rfl, List.drop_left]
    rw [hdrop]
    have hlen2 : cs.length + 1 + q.length = (cs.length + q.length) + 1 := by omega
    rw [hlen2, subScanF]
    rw [hnone]
    dsimp only
    rw [List.nil_append]
    congr 1
    apply subScanF_congr
    · omega
    · exact le_rfl

/-- C5 as stated fails on the code: with brand `"wi"`, prepending the
brand word to the phrase `"fi x"` lets the brand form a `wi fi` variant
token with the phrase text, which variant removal deletes, so the two
keys differ (`"x"` versus `"fix"`). -/
theorem canonical_key_not_brand_invariant :
    productCanonicalKey (str "wi") (str "wi" ++ ' ' :: str "fi x") = str "x" ∧
    productCanonicalKey (str "wi") (str "fi x") = str "fix" ∧
    decide (productCanonicalKey (str "wi") (str "wi" ++ ' ' :: str "fi x") =
      productCanonicalKey (str "wi") (str "fi x")) = false := by
  decide

/-- C5 amended: prepending the brand word leaves the canonical key
unchanged for every brand whose lower-cased form is a plain ASCII word
and every phrase of letters, digits and single spaces with clean edges,
provided the phrase does not itself start with the brand word and no
variant-token substitution fires on either form; in particular
`canonicalKey("Acme", "Acme Widget Pro") = canonicalKey("Acme",
"Widget Pro")`. -/
theorem canonical_key_brand_invariant_when_safe (b p : List Char)
    (hb : simpleWord (lowerStr b) = true)
    (hp : simplePhrase p = true)
    (hph : wsHead p = false)
    (hpl : ∀ c, p.getLast? = some c → c ≠ ' ')
    (hnp : noWsPair p = true)
    (hv1 : variantFree (b ++ ' ' :: p) = true)
    (hv2 : variantFree p = true)
    (hpre : (lowerStr b).isPrefixOf (lowerStr p) = false) :
    productCanonicalKey b (b ++ ' ' :: p) = productCanonicalKey b p := by
  obtain ⟨hbne', hball⟩ := simpleWord_parts hb
  obtain ⟨hpne, hpall⟩ := simplePhrase_parts hp
  have hbne : b ≠ [] := by
    intro he
    subst he
    exact hbne' rfl
  have hbraw : ∀ c ∈ b, alnumRange c := by
    intro c hc
    exact toLower_alnumRange (hball c.toLower (List.mem_map_of_mem Char.toLower hc))
  -- the lower-cased concatenation
  have hlow : lowerStr (b ++ ' ' :: p) = lowerStr b ++ ' ' :: lowerStr p := by
    rw [lowerStr, List.map_append, List.map_cons]
    rfl
  -- the display form of the concatenation is itself
  have hedge1 : edgeClean (b ++ ' ' :: p) = true := by
    apply edgeClean_intro
    · intro c hc
      cases b with
      | nil => exact absurd rfl hbne
      | cons c0 cs =>
        rw [List.cons_append] at hc
        simp only [List.head?_cons, Option.some_inj] at hc
        subst hc
        exact alnum_edge_clean (hbraw _ (by simp))
    · intro c hc
      cases p with
      | nil => exact absurd rfl hpne
      | cons d p' =>
        rw [List.getLast?_append, List.getLast?_cons_cons] at hc
        have hg := List.getLast?_eq_getLast (d :: p') (by simp)
        rw [hg] at hc
        dsimp only [Option.or] at hc
        have hlast : (d :: p').getLast? = some c := by rw [hg, hc]
        have hmem : c ∈ d :: p' := by
          rw [hg] at hlast
          cases hlast
          exact List.getLast_mem _
        have hcs : c ≠ ' ' := hpl c hlast
        exact alnum_edge_clean (simpleChar_alnumRange (hpall c hmem) hcs)
  have hnp1 : noWsPair (b ++ ' ' :: p) = true := by
    apply noWsPair_word_space
    · intro c hc
      exact alnumRange_not_ws (hbraw c hc)
    · exact hph
    · exact hnp
  have hcut1 : ((lowerStr b ++ ' ' :: lowerStr b).isPrefixOf
      (lowerStr (b ++ ' ' :: p))) = false := by
    rw [hlow]
    rw [show lowerStr b ++ ' ' :: lowerStr b = lowerStr b ++ (' ' :: lowerStr b) from rfl,
      show lowerStr b ++ ' ' :: lowerStr p = lowerStr b ++ (' ' :: lowerStr p) from rfl,
      isPrefixOf_append_cancel]
    simpa [List.isPrefixOf] using hpre
  have hd1 : productCanonicalDisplay b (b ++ ' ' :: p) = b ++ ' ' :: p := by
    rw [productCanonicalDisplay, variantPass_id hv1, collapse_id hnp1,
      pyStrip_id_of_edgeClean hedge1, pyStripWs_id_of_edgeClean hedge1, hcut1]
    simp
  -- the display form of the phrase is itself
  have hedge2 : edgeClean p = true := by
    apply edgeClean_intro
    · intro c hc
      have hmem : c ∈ p := by
        cases p with
        | nil => simp at hc
        | cons d p' =>
          simp only [List.head?_cons, Option.some_inj] at hc
          subst hc
          simp
      have hcs : c ≠ ' ' := by
        intro he
        subst he
        cases p with
        | nil => simp at hc
        | cons d p' =>
          simp only [List.head?_cons, Option.some_inj] at hc
          rw [hc] at hph
          simp [wsHead, isWsCh] at hph
      exact alnum_edge_clean (simpleChar_alnumRange (hpall c hmem) hcs)
    · intro c hc
      have hmem : c ∈ p := by
        cases p with
        | nil => simp at hc
        | cons d p' =>
          have := List.getLast?_eq_getLast (d :: p') (by simp)
          rw [this] at hc
          cases hc
          exact List.getLast_mem _
      exact alnum_edge_clean (simpleChar_alnumRange (hpall c hmem) (hpl c hc))
  have hcut2 : ((lowerStr b ++ ' ' :: lowerStr b).isPrefixOf (lowerStr p)) = false := by
    by_contra hcon
    rw [Bool.not_eq_false] at hcon
    have := isPrefixOf_of_append_left (lowerStr b) (' ' :: lowerStr b) (lowerStr p) hcon
    rw [this] at hpre
    cases hpre
  have hd2 : productCanonicalDisplay b p = p := by
    rw [productCanonicalDisplay, variantPass_id hv2, collapse_id hnp,
      pyStrip_id_of_edgeClean hedge2, pyStripWs_id_of_edgeClean hedge2, hcut2]
    simp
  -- keys
  rw [productCanonicalKey, productCanonicalKey, hd1, hd2, hlow,
    removeBrand_step (lowerStr b) (lowerStr p) hb, squashKey, List.filter_cons]
  simp [isKeyChar, squashKey]

/-- Witness for the amended C5: the spec's own instance, brand `"Acme"`
with phrase `"Widget Pro"`. -/
theorem canonical_key_brand_invariant_when_safe_witness :
    productCanonicalKey (str "Acme") (str "Acme" ++ ' ' :: str "Widget Pro") =
      productCanonicalKey (str "Acme") (str "Widget Pro") :=
  canonical_key_brand_invariant_when_safe (str "Acme") (str "Widget Pro")
    (by decide) (by decide) (by decide) (by decide) (by decide) (by decide)
    (by decide) (by decide)

/-! ### C3: end-to-end scenario A -/

/-- C3 as stated fails on the code: scenario A does produce exactly one
row for the matching page, but its product name is the longer capture
`"Acme Rover X2"` (kept by the collapse pass because it sorts first and
shares its canonical key with `"Rover X2"`), not `"Rover X2"`. -/
theorem scenarioA_claimed_row_is_wrong :
    decide (scenAResult.map (fun r => (r.brand, r.product, r.url)) =
      [(str "Acme", str "Rover X2", "https://acme.example/b")]) = false := by
  decide

/-- C3 amended: scenario A produces exactly one result row, for the
matching page, with brand `Acme` and product `"Acme Rover X2"`. -/
theorem scenarioA_single_row :
    scenAResult.map (fun r => (r.brand, r.product, r.url)) =
      [(str "Acme", str "Acme Rover X2", "https://acme.example/b")] := by
  decide

/-! ### C6: token-count boundary of the candidate filter -/

/-- C6 as stated fails on the code: with `requireBrandInName` set, a
captured phrase with exactly one token after cleanup is brand-prefixed
and then kept, so it does emit a candidate. -/
theorem one_token_phrase_emits_candidate_when_brand_required :
    (pySplitWs (cleanPhraseTokens (str "Rover"))).length = 1 ∧
    detectFromText (str "Acme Rover") (str "Acme") 12 true [] [] = [str "Acme Rover"] := by
  decide

/-- C6 amended: a phrase surviving cleanup is brand-prefixed exactly
when `requireBrandInName` is set and the lower-cased phrase lacks the
brand substring, and the (possibly prefixed) phrase is kept iff it then
has at least two tokens; in particular, absent ignore-word and
other-brand hits, a one-token phrase is discarded when no prefixing
happens and a two-token phrase is always kept. -/
theorem filter_token_boundary (brand p : List Char) (req : Bool)
    (ignore other : List (List Char)) (maxN : Nat)
    (hob : (other.any fun ob => isSubstr ob (lowerStr p)) = false)
    (hig : (ignore.any fun w => isSubstr w (lowerStr p)) = false) :
    (filterCandidates brand req ignore other maxN [p] =
      (if (pySplitWs (if req && !isSubstr (lowerStr brand) (lowerStr p)
              then brand ++ ' ' :: p else p)).length < 2 then []
       else [if req && !isSubstr (lowerStr brand) (lowerStr p)
              then brand ++ ' ' :: p else p])) ∧
    ((req = false ∨ isSubstr (lowerStr brand) (lowerStr p) = true) →
      (pySplitWs p).length = 1 →
      filterCandidates brand req ignore other maxN [p] = []) ∧
    ((req = false ∨ isSubstr (lowerStr brand) (lowerStr p) = true) →
      (pySplitWs p).length = 2 →
      filterCandidates brand req ignore other maxN [p] = [p]) := by
  have hreq : ∀ h : (req && !isSubstr (lowerStr brand) (lowerStr p)) = false,
      (if req && !isSubstr (lowerStr brand) (lowerStr p)
        then brand ++ ' ' :: p else p) = p := by
    intro h
    rw [h]
    simp
  have hmain : filterCandidates brand req ignore other maxN [p] =
      (if (pySplitWs (if req && !isSubstr (lowerStr brand) (lowerStr p)
              then brand ++ ' ' :: p else p)).length < 2 then []
       else [if req && !isSubstr (lowerStr brand) (lowerStr p)
              then brand ++ ' ' :: p else p]) := by
    rw [filterCandidates, filterCandsAux]
    dsimp only
    rw [if_neg (by rw [hob, hig]; simp)]
    set p' := if req && !isSubstr (lowerStr brand) (lowerStr p)
      then brand ++ ' ' :: p else p with hp'
    by_cases htok : (pySplitWs p').length < 2
    · rw [if_pos htok, if_pos htok, filterCandsAux]
    · rw [if_neg htok, if_neg htok]
      rw [if_neg (by simp : ¬ lowerStr p' ∈ ([] : List (List Char))),
        if_neg (by simp : ¬ lowerStr p' ∈ ([] : List (List Char)))]
      simp only [List.nil_append]
      by_cases hcap : maxN ≤ ([p'] : List (List Char)).length
      · rw [if_pos hcap]
      · rw [if_neg hcap, filterCandsAux]
  refine ⟨hmain, ?_, ?_⟩
  · intro hside h1
    have hfalse : (req && !isSubstr (lowerStr brand) (lowerStr p)) = false := by
      rcases hside with rfl | hsub
      · simp
      · simp [hsub]
    rw [hmain, hreq hfalse, h1]
    simp
  · intro hside h2
    have hfalse : (req && !isSubstr (lowerStr brand) (lowerStr p)) = false := by
      rcases hside with rfl | hsub
      · simp
      · simp [hsub]
    rw [hmain, hreq hfalse, h2]
    simp

/-- Witness for the amended C6: the two-token phrase `"Rover X2"` is
kept unchanged, and the one-token phrase `"Rover"` is discarded, when
`requireBrandInName` is off. -/
theorem filter_token_boundary_witness :
    filterCandidates (str "Acme") false [] [] 12 [str "Rover X2"] = [str "Rover X2"] ∧
    filterCandidates (str "Acme") false [] [] 12 [str "Rover"] = [] := by
  constructor
  · exact (filter_token_boundary (str "Acme") (str "Rover X2") false [] [] 12
      (by decide) (by decide)).2.2 (Or.inl rfl) (by decide)
  · exact (filter_token_boundary (str "Acme") (str "Rover") false [] [] 12
      (by decide) (by decide)).2.1 (Or.inl rfl) (by decide)

/-! ### C7: the per-page candidate cap -/

/-- C7 as stated fails on the code: with the configured maximum set to
1, a page whose markup heuristic and free-text heuristic contribute
different candidates exposes two merged rows to the aggregation step. -/
theorem merged_candidates_not_capped :
    capCfg.maxNames = 1 ∧ capRows.length = 2 ∧
    decide (capRows.length ≤ capCfg.maxNames) = false := by
  decide

theorem filterCandsAux_length_le (brand : List Char) (req : Bool)
    (ignore other : List (List Char)) (maxN : Nat) :
    ∀ (ps seen res : List (List Char)), res.length < maxN →
      (filterCandsAux brand req ignore other maxN ps seen res).length ≤ maxN := by
  intro ps
  induction ps with
  | nil =>
    intro seen res h
    rw [filterCandsAux]
    omega
  | cons p ps ih =>
    intro seen res h
    rw [filterCandsAux]
    dsimp only
    by_cases h1 : ((other.any fun ob => isSubstr ob (lowerStr p)) ||
        ignore.any fun w => isSubstr w (lowerStr p)) = true
    · rw [if_pos h1]
      exact ih seen res h
    · rw [if_neg (by simpa using h1)]
      set p' := if req && !isSubstr (lowerStr brand) (lowerStr p)
        then brand ++ ' ' :: p else p with hp'
      by_cases h2 : (pySplitWs p').length < 2
      · rw [if_pos h2]
        exact ih seen res h
      · rw [if_neg h2]
        by_cases h3 : lowerStr p' ∈ seen
        · rw [if_pos h3, if_pos h3]
          rw [if_neg (by omega : ¬ maxN ≤ res.length)]
          exact ih _ _ h
        · rw [if_neg h3, if_neg h3]
          by_cases h4 : maxN ≤ (res ++ [p']).length
          · rw [if_pos h4]
            rw [List.length_append] at h4 ⊢
            simp only [List.length_cons, List.length_nil] at h4 ⊢
            omega
          · rw [if_neg h4]
            apply ih
            rw [List.length_append] at h4 ⊢
            simp only [List.length_cons, List.length_nil] at h4 ⊢
            omega

/-- C7 amended: each of the markup-heuristic and free-text candidate
sources is individually capped at the configured per-page maximum, but
the merged, de-duplicated set exposed to aggregation is not capped and
can exceed it (catalog and structured-data hits are never capped). -/
theorem per_source_candidate_cap (text brand : List Char) (tagTexts : List (List Char))
    (maxN : Nat) (req : Bool) (ignore other : List (List Char)) (h : 1 ≤ maxN) :
    (detectFromText text brand maxN req ignore other).length ≤ maxN ∧
    (detectFromHtml tagTexts brand maxN req ignore other).length ≤ maxN := by
  constructor
  · exact filterCandsAux_length_le brand req ignore other maxN _ [] [] (by simpa using h)
  · exact filterCandsAux_length_le brand req ignore other maxN _ [] [] (by simpa using h)

/-- Witness for the amended C7 on the C7 scenario page: each source
respects the cap of 1 even though their merge does not. -/
theorem per_source_candidate_cap_witness :
    (detectFromText (str "Acme Beta Two") (str "Acme") 1 false [] []).length ≤ 1 ∧
    (detectFromHtml [str "Acme Alpha One"] (str "Acme") 1 false [] []).length ≤ 1 :=
  per_source_candidate_cap (str "Acme Beta Two") (str "Acme") [str "Acme Alpha One"]
    1 false [] [] (by decide)

/-! ### C8: breadth-first crawl fallback -/

theorem crawlBfs_visited_le (pages : String → Option (List String))
    (keep : String → Bool) (limit : Nat) :
    ∀ (q visited : List String), visited.length ≤ limit →
      (crawlBfs pages keep limit q visited).length ≤ limit := by
  intro q visited
  induction q, visited using crawlBfs.induct pages keep limit with
  | case1 visited =>
    intro h
    rw [crawlBfs]
    exact h
  | case2 u rest visited hlt hmem ih =>
    intro h
    rw [crawlBfs, if_pos hlt, if_pos hmem]
    exact ih h
  | case3 u rest visited hlt hmem v' hnone ih =>
    intro _
    rw [crawlBfs, if_pos hlt, if_neg hmem]
    dsimp only
    rw [hnone]
    exact ih (by simpa using hlt)
  | case4 u rest visited hlt hmem v' links hsome ih =>
    intro _
    rw [crawlBfs, if_pos hlt, if_neg hmem]
    dsimp only
    rw [hsome]
    exact ih (by simpa using hlt)
  | case5 u rest visited hge =>
    intro h
    rw [crawlBfs, if_neg hge]
    exact h

/-- C8: the crawl fallback processes the frontier first-in-first-out,
its visited set never exceeds the page budget, and a URL that is
already visited is never added to the frontier (the links enqueued by a
step are exactly those w passing the not-visited and same-site guard). -/
theorem crawl_fifo_budget_no_reenqueue (pages : String → Option (List String))
    (keep : String → Bool) :
    (∀ limit (q visited : List String), visited.length ≤ limit →
      (crawlBfs pages keep limit q visited).length ≤ limit) ∧
    (∀ limit u (rest visited : List String), visited.length < limit → u ∈ visited →
      crawlBfs pages keep limit (u :: rest) visited =
        crawlBfs pages keep limit rest visited) ∧
    (∀ limit u (rest visited : List String) links, visited.length < limit →
      u ∉ visited → pages u = some links →
      crawlBfs pages keep limit (u :: rest) visited =
        crawlBfs pages keep limit
          (rest ++ links.filter fun l => decide (l ∉ u :: visited) && keep l)
          (u :: visited) ∧
      ∀ l ∈ links.filter fun l => decide (l ∉ u :: visited) && keep l,
        l ∉ u :: visited) := by
  refine ⟨crawlBfs_visited_le pages keep, ?_, ?_⟩
  · intro limit u rest visited hlt hmem
    rw [crawlBfs, if_pos hlt, if_pos hmem]
  · intro limit u rest visited links hlt hmem hpages
    constructor
    · rw [crawlBfs, if_pos hlt, if_neg hmem]
      dsimp only
      rw [hpages]
    · intro l hl
      rw [List.mem_filter, Bool.and_eq_true, decide_eq_true_eq] at hl
      exact hl.2.1

/-- Witness for C8 with a concrete two-page site: the budget bound, the
FIFO dequeue of an already-visited head, and the guard on enqueued
links. -/
theorem crawl_fifo_budget_no_reenqueue_witness :
    ((crawlBfs (fun _ => some ["a", "b"]) (fun _ => true) 2 ["a"] []).length ≤ 2) ∧
    (crawlBfs (fun _ => some ["a", "b"]) (fun _ => true) 2 ["a", "c"] ["a"] =
      crawlBfs (fun _ => some ["a", "b"]) (fun _ => true) 2 ["c"] ["a"]) ∧
    (∀ l ∈ ["a", "b"].filter fun l =>
        decide (l ∉ ["a"]) && (fun _ : String => true) l, l ∉ ["a"]) := by
  refine ⟨(crawl_fifo_budget_no_reenqueue (fun _ => some ["a", "b"]) (fun _ => true)).1
      2 ["a"] [] (by decide),
    (crawl_fifo_budget_no_reenqueue (fun _ => some ["a", "b"]) (fun _ => true)).2.1
      2 "a" ["c"] ["a"] (by decide) (by decide), ?_⟩
  have h := ((crawl_fifo_budget_no_reenqueue (fun _ => some ["a", "b"])
      (fun _ => true)).2.2 2 "a" ["c"] [] ["a", "b"] (by decide) (by decide) rfl).2
  intro l hl
  have := h l (by simpa using hl)
  simpa using this

/-! ### C9: fetch failures are absorbed -/

theorem scanUrl_nil_of_fetch_none (cfg : ScanConfig) (products : List Product)
    (cpats : List (List Char × List Char × List Char)) (w : String → FetchOutcome)
    (url : String) (h : fetchModel w url = none) :
    scanUrl cfg products cpats w url = [] := by
  rw [scanUrl, h]

/-- C9: `fetch` yields `None` on every non-200 status and on every
transport error instead of raising; a page whose fetch is absent
contributes zero rows; a crawl step whose fetch fails continues with
the rest of the frontier; and a scan in which every fetch fails
completes with an empty result set. -/
theorem fetch_failure_non_fatal :
    (∀ (w : String → FetchOutcome) url st pg, w url = .ok st pg → st ≠ 200 →
      fetchModel w url = none) ∧
    (∀ (w : String → FetchOutcome) url, w url = .err → fetchModel w url = none) ∧
    (∀ cfg products cpats (w : String → FetchOutcome) url, fetchModel w url = none →
      scanUrl cfg products cpats w url = []) ∧
    (∀ pages (keep : String → Bool) limit u (rest visited : List String),
      visited.length < limit → u ∉ visited → pages u = none →
      crawlBfs pages keep limit (u :: rest) visited =
        crawlBfs pages keep limit rest (u :: visited)) ∧
    (∀ cfg products (w : String → FetchOutcome) (urls : List String),
      (∀ u ∈ urls, fetchModel w u = none) → runScan cfg products w urls = []) := by
  refine ⟨?_, ?_, ?_, ?_, ?_⟩
  · intro w url st pg h hst
    rw [fetchModel, h]
    dsimp only
    rw [if_neg hst]
  · intro w url h
    rw [fetchModel, h]
  · intro cfg products cpats w url h
    exact scanUrl_nil_of_fetch_none cfg products cpats w url h
  · intro pages keep limit u rest visited hlt hmem hpages
    rw [crawlBfs, if_pos hlt, if_neg hmem]
    rw [hpages]
  · intro cfg products w urls h
    have hflat : urls.flatMap (scanUrl cfg products (catalogPatsOf products) w) = [] := by
      induction urls with
      | nil => rfl
      | cons u us ih =>
        rw [List.flatMap_cons,
          scanUrl_nil_of_fetch_none cfg products (catalogPatsOf products) w u
            (h u (by simp)),
          List.nil_append]
        exact ih fun v hv => h v (List.mem_cons_of_mem u hv)
    rw [runScan]
    rw [hflat]
    simp [aggregate, aggAux]

/-- Witness for C9: a 404 page, a transport error, and a two-URL scan
in which every fetch errors out, yielding no rows. -/
theorem fetch_failure_non_fatal_witness :
    fetchModel (fun _ => .ok 404 (plainPage (str "x"))) "u" = none ∧
    fetchModel (fun _ => .err) "u" = none ∧
    scanUrl scenACfg scenAProducts [] (fun _ => .err) "u" = [] ∧
    runScan scenACfg scenAProducts (fun _ => .err) ["a", "b"] = [] := by
  refine ⟨fetch_failure_non_fatal.1 _ "u" 404 (plainPage (str "x")) rfl (by decide),
    fetch_failure_non_fatal.2.1 _ "u" rfl,
    fetch_failure_non_fatal.2.2.1 scenACfg scenAProducts [] _ "u"
      (fetch_failure_non_fatal.2.1 _ "u" rfl), ?_⟩
  exact fetch_failure_non_fatal.2.2.2.2 scenACfg scenAProducts _ ["a", "b"]
    fun u _ => fetch_failure_non_fatal.2.1 _ u rfl

/-! ### C10: the structured-data extractor -/

theorem processNode_ok_some : ∀ {n : Json} {b nm : List Char},
    processNode n = .ok (some (b, nm)) →
    nm ≠ [] ∧ b ≠ [] ∧
    (∀ fields, n = .obj fields →
      (brandOf fields = .ok [] → b = str "Unknown") ∧
      (∀ bn, brandOf fields = .ok bn → bn ≠ [] → b = bn)) := by
  intro n b nm h
  cases n with
  | obj fields =>
    rw [processNode] at h
    by_cases hprod : isProductNode fields = true
    · rw [if_pos hprod] at h
      cases hname : strOrEmpty (jget fields (str "name")) with
      | error e => rw [hname] at h; cases h
      | ok name =>
        rw [hname] at h
        cases hbrand : brandOf fields with
        | error e => rw [hbrand] at h; cases h
        | ok bn =>
          rw [hbrand] at h
          dsimp only at h
          by_cases hne : name ≠ []
          · rw [if_pos hne] at h
            have hpair : (if bn = [] then str "Unknown" else bn) = b ∧ name = nm := by
              have := congrArg (fun x => match x with
                | Except.ok (some pr) => pr
                | _ => (([] : List Char), ([] : List Char))) h
              simp at this
              exact ⟨this.1, this.2⟩
            obtain ⟨hb, hnm⟩ := hpair
            subst hnm
            refine ⟨hne, ?_, ?_⟩
            · rw [← hb]
              by_cases hbn : bn = []
              · rw [if_pos hbn]
                decide
              · rw [if_neg hbn]
                exact hbn
            · intro fields' hf
              cases hf
              constructor
              · intro hok
                rw [hbrand] at hok
                have hbn : bn = [] := by
                  cases hok
                  rfl
                rw [← hb, if_pos hbn]
              · intro bn' hok hbn'
                rw [hbrand] at hok
                have : bn = bn' := by
                  cases hok
                  rfl
                subst this
                rw [← hb, if_neg hbn']
          · rw [if_neg hne] at h
            simp at h
    · rw [if_neg hprod] at h
      simp at h
  | null => simp [processNode] at h
  | bool v => simp [processNode] at h
  | num v => simp [processNode] at h
  | jstr v => simp [processNode] at h
  | arr v => simp [processNode] at h

theorem goNodes_inv (P : List Char × List Char → Prop)
    (hP : ∀ (n : Json) (b nm : List Char), processNode n = .ok (some (b, nm)) → P (b, nm)) :
    ∀ (ns : List Json) (acc : List (List Char × List Char)),
      (∀ pr ∈ acc, P pr) → ∀ pr ∈ (goNodes ns acc).1, P pr := by
  intro ns
  induction ns with
  | nil => intro acc hacc pr hpr; exact hacc pr hpr
  | cons n ns ih =>
    intro acc hacc pr hpr
    rw [goNodes] at hpr
    cases hpn : processNode n with
    | error e =>
      rw [hpn] at hpr
      exact hacc pr hpr
    | ok v =>
      cases v with
      | none =>
        rw [hpn] at hpr
        exact ih acc hacc pr hpr
      | some pr' =>
        rw [hpn] at hpr
        refine ih (acc ++ [pr']) ?_ pr hpr
        intro q hq
        rcases List.mem_append.1 hq with hq | hq
        · exact hacc q hq
        · rw [List.mem_singleton] at hq
          subst hq
          obtain ⟨qb, qn⟩ := q
          exact hP n qb qn hpn

theorem goBlocks_inv (P : List Char × List Char → Prop)
    (hP : ∀ (n : Json) (b nm : List Char), processNode n = .ok (some (b, nm)) → P (b, nm)) :
    ∀ (bs : List (Option Json)) (acc : List (List Char × List Char)),
      (∀ pr ∈ acc, P pr) → ∀ pr ∈ goBlocks bs acc, P pr := by
  intro bs
  induction bs with
  | nil => intro acc hacc pr hpr; exact hacc pr hpr
  | cons ob bs ih =>
    intro acc hacc pr hpr
    cases ob with
    | none =>
      rw [goBlocks] at hpr
      exact ih acc hacc pr hpr
    | some j =>
      rw [goBlocks] at hpr
      have hinv := goNodes_inv P hP (nodesOf j) acc hacc
      cases hg : goNodes (nodesOf j) acc with
      | mk acc' ab =>
        rw [hg] at hpr hinv
        cases ab with
        | false => exact ih acc' (fun q hq => hinv q hq) pr hpr
        | true => exact hinv pr hpr

/-- C10: the structured-data extractor is total (modelled as a plain
function of the block parse outcomes); every emitted pair has a
non-empty product name and a non-empty brand; a node without a usable
brand name is emitted with the literal brand `"Unknown"` and one with a
usable brand name keeps it; and a malformed JSON block is skipped,
contributing no pairs. -/
theorem jsonld_products_wellformed :
    (∀ (blocks : List (Option Json)) pr, pr ∈ jsonldProducts blocks →
      pr.2 ≠ [] ∧ pr.1 ≠ []) ∧
    (∀ blocks : List (Option Json),
      jsonldProducts (none :: blocks) = jsonldProducts blocks) ∧
    (∀ (fields : List (List Char × Json)) (b nm : List Char),
      processNode (.obj fields) = .ok (some (b, nm)) →
      nm ≠ [] ∧ (brandOf fields = .ok [] → b = str "Unknown") ∧
      (∀ bn, brandOf fields = .ok bn → bn ≠ [] → b = bn)) := by
  refine ⟨?_, ?_, ?_⟩
  · intro blocks pr hpr
    refine goBlocks_inv (fun q => q.2 ≠ [] ∧ q.1 ≠ []) ?_ blocks [] (by simp) pr hpr
    intro n b nm h
    have := processNode_ok_some h
    exact ⟨this.1, this.2.1⟩
  · intro blocks
    rfl
  · intro fields b nm h
    have := processNode_ok_some h
    refine ⟨this.1, ?_, ?_⟩
    · exact fun hok => ((this.2.2 fields rfl).1 hok)
    · exact fun bn hok hbn => ((this.2.2 fields rfl).2 bn hok hbn)

/-- Witness for C10 on a concrete page: one malformed block, one
Product node with a brand object lacking a name (emitted as
`"Unknown"`), and one Product node with a usable brand. -/
theorem jsonld_products_wellformed_witness :
    ((str "Unknown", str "Gadget") ∈
        jsonldProducts [none,
          some (.obj [(str "@type", .jstr (str "Product")),
            (str "name", .jstr (str " Gadget ")), (str "brand", .null)]),
          some (.obj [(str "@type", .arr [.jstr (str "product")]),
            (str "name", .jstr (str "Widget")),
            (str "brand", .jstr (str "Acme"))])] →
      str "Gadget" ≠ [] ∧ str "Unknown" ≠ []) ∧
    jsonldProducts [none, some (.obj [(str "@type", .jstr (str "Product")),
        (str "name", .jstr (str "Widget")), (str "brand", .jstr (str "Acme"))])] =
      jsonldProducts [some (.obj [(str "@type", .jstr (str "Product")),
        (str "name", .jstr (str "Widget")), (str "brand", .jstr (str "Acme"))])] := by
  exact ⟨fun hmem => jsonld_products_wellformed.1 _ _ hmem,
    jsonld_products_wellformed.2.1 _⟩

end BPF
